import Mathlib

/-!
# maskat: the masking engine

A shallow embedding of `internal/masker/masker.go` together with the parts of
the Go standard library it calls (`crypto/sha256`, `fmt.Sprintf("%x")`,
`regexp`), followed by theorems about `hashEmail` and `Masker.Mask`.

A Go `string` is modelled as a Lean `String`, that is, as the sequence of
Unicode code points of a valid UTF-8 text; the bytes of the string are
recovered with `utf8.encode`.  The regexp engine of Go works on code points
(runes), so positions inside a text are rune positions here.
-/

set_option maxRecDepth 100000
set_option maxHeartbeats 1000000

/-! ## unicode/utf8 -/

namespace utf8

/-- The UTF-8 bytes of one code point (`utf8.AppendRune`). -/
def encodeRune (c : Char) : List Nat :=
  let n := c.toNat
  if n < 0x80 then [n]
  else if n < 0x800 then [0xC0 + n / 64, 0x80 + n % 64]
  else if n < 0x10000 then [0xE0 + n / 4096, 0x80 + (n / 64) % 64, 0x80 + n % 64]
  else [0xF0 + n / 262144, 0x80 + (n / 4096) % 64, 0x80 + (n / 64) % 64, 0x80 + n % 64]

/-- The bytes of a string: the conversion `[]byte(s)`. -/
def encode (s : List Char) : List Nat := s.flatMap encodeRune

end utf8

/-! ## crypto/sha256 -/

namespace sha256

/-- The round constants `_K` of `sha256block.go`. -/
def _K : List Nat := [
  0x428a2f98, 0x71374491, 0xb5c0fbcf, 0xe9b5dba5, 0x3956c25b, 0x59f111f1, 0x923f82a4, 0xab1c5ed5,
  0xd807aa98, 0x12835b01, 0x243185be, 0x550c7dc3, 0x72be5d74, 0x80deb1fe, 0x9bdc06a7, 0xc19bf174,
  0xe49b69c1, 0xefbe4786, 0x0fc19dc6, 0x240ca1cc, 0x2de92c6f, 0x4a7484aa, 0x5cb0a9dc, 0x76f988da,
  0x983e5152, 0xa831c66d, 0xb00327c8, 0xbf597fc7, 0xc6e00bf3, 0xd5a79147, 0x06ca6351, 0x14292967,
  0x27b70a85, 0x2e1b2138, 0x4d2c6dfc, 0x53380d13, 0x650a7354, 0x766a0abb, 0x81c2c92e, 0x92722c85,
  0xa2bfe8a1, 0xa81a664b, 0xc24b8b70, 0xc76c51a3, 0xd192e819, 0xd6990624, 0xf40e3585, 0x106aa070,
  0x19a4c116, 0x1e376c08, 0x2748774c, 0x34b0bcb5, 0x391c0cb3, 0x4ed8aa4a, 0x5b9cca4f, 0x682e6ff3,
  0x748f82ee, 0x78a5636f, 0x84c87814, 0x8cc70208, 0x90befffa, 0xa4506ceb, 0xbef9a3f7, 0xc67178f2]

/-- Truncation to a `uint32`. -/
def u32 (x : Nat) : Nat := x % 4294967296

/-- Rotation to the right of a 32-bit word: `bits.RotateLeft32(x, -n)`. -/
def rotr (x n : Nat) : Nat := u32 ((x >>> n) ||| (x <<< (32 - n)))

/-- The eight chaining words `h[0..7]` of a `digest`. -/
structure Digest where
  h0 : Nat
  h1 : Nat
  h2 : Nat
  h3 : Nat
  h4 : Nat
  h5 : Nat
  h6 : Nat
  h7 : Nat
deriving DecidableEq, Repr

/-- The initial chaining value (`init0 .. init7`). -/
def init : Digest :=
  ⟨0x6a09e667, 0xbb67ae85, 0x3c6ef372, 0xa54ff53a, 0x510e527f, 0x9b05688c, 0x1f83d9ab, 0x5be0cd19⟩

/-- One more word of the message schedule; `w` holds the words computed so
far, newest first, so that `w[i-2]` is at index 1 and `w[i-16]` at index 15. -/
def nextW (w : List Nat) : Nat :=
  let v1 := w.getD 1 0
  let t1 := rotr v1 17 ^^^ rotr v1 19 ^^^ (v1 >>> 10)
  let v2 := w.getD 14 0
  let t2 := rotr v2 7 ^^^ rotr v2 18 ^^^ (v2 >>> 3)
  u32 (t1 + w.getD 6 0 + t2 + w.getD 15 0)

/-- Extension of the schedule by `n` words (newest first). -/
def schedule : Nat → List Nat → List Nat
  | 0, w => w
  | n + 1, w => schedule n (nextW w :: w)

/-- One round of the compression loop on the working variables `a .. h`. -/
def round (s : Digest) (k w : Nat) : Digest :=
  let t1 := u32 (s.h7 + (rotr s.h4 6 ^^^ rotr s.h4 11 ^^^ rotr s.h4 25)
    + ((s.h4 &&& s.h5) ^^^ ((s.h4 ^^^ 0xffffffff) &&& s.h6)) + k + w)
  let t2 := u32 ((rotr s.h0 2 ^^^ rotr s.h0 13 ^^^ rotr s.h0 22)
    + ((s.h0 &&& s.h1) ^^^ (s.h0 &&& s.h2) ^^^ (s.h1 &&& s.h2)))
  ⟨u32 (t1 + t2), s.h0, s.h1, s.h2, u32 (s.h3 + t1), s.h4, s.h5, s.h6⟩

/-- The 64 rounds, one per constant and schedule word. -/
def rounds : List Nat → List Nat → Digest → Digest
  | k :: ks, w :: ws, s => rounds ks ws (round s k w)
  | _, _, s => s

/-- Big-endian 32-bit words of a chunk. -/
def words : List Nat → List Nat
  | a :: b :: c :: d :: rest => (a <<< 24 ||| b <<< 16 ||| c <<< 8 ||| d) :: words rest
  | _ => []

/-- The body of `blockGeneric` for one 64-byte chunk `p`. -/
def block (d : Digest) (p : List Nat) : Digest :=
  let w := (schedule 48 (words p).reverse).reverse
  let s := rounds _K w d
  ⟨u32 (d.h0 + s.h0), u32 (d.h1 + s.h1), u32 (d.h2 + s.h2), u32 (d.h3 + s.h3),
   u32 (d.h4 + s.h4), u32 (d.h5 + s.h5), u32 (d.h6 + s.h6), u32 (d.h7 + s.h7)⟩

/-- The loop of `blockGeneric` over `n` chunks. -/
def blocks : Nat → Digest → List Nat → Digest
  | 0, d, _ => d
  | n + 1, d, p => blocks n (block d (p.take 64)) (p.drop 64)

/-- The `n` low bytes of `x`, most significant first. -/
def bigEndian (n : Nat) (x : Nat) : List Nat :=
  (List.range n).reverse.map (fun i => (x >>> (8 * i)) % 256)

/-- The padding of `checkSum`: a byte `0x80`, zeros up to 56 modulo 64, and
the length in bits on eight bytes. -/
def pad (msg : List Nat) : List Nat :=
  let len := msg.length
  let t := 64 - ((len + 8) % 64)
  msg ++ (0x80 :: List.replicate (t - 1) 0) ++ bigEndian 8 (len * 8)

/-- The digest `sha256.Sum256(data)`, 32 bytes. -/
def Sum256 (data : List Nat) : List Nat :=
  let p := pad data
  let d := blocks (p.length / 64) init p
  bigEndian 4 d.h0 ++ bigEndian 4 d.h1 ++ bigEndian 4 d.h2 ++ bigEndian 4 d.h3
    ++ bigEndian 4 d.h4 ++ bigEndian 4 d.h5 ++ bigEndian 4 d.h6 ++ bigEndian 4 d.h7

end sha256

/-! ## fmt -/

namespace fmt

/-- The digits of `%x` (`ldigits` in `fmt/format.go`). -/
def ldigits : List Char := "0123456789abcdef".data

/-- One hexadecimal digit. -/
def digit (n : Nat) : Char := ldigits.getD n '0'

/-- The text `fmt.Sprintf("%x", b)` of a byte array: two lower-case digits
for each byte. -/
def Sprintf_x (b : List Nat) : List Char := b.flatMap (fun x => [digit (x / 16), digit (x % 16)])

end fmt

/-! ## regexp/syntax and regexp -/

namespace regexp

/-- The function `unicode.SimpleFold` on the code points whose orbit meets
the characters of the pattern: the ASCII letters, with the two longer orbits
`K → k → U+212A (KELVIN SIGN) → K` and `S → s → U+017F (LONG S) → S`; every
other ASCII character is its own orbit. -/
def SimpleFold (r : Nat) : Nat :=
  if r = 0x4B then 0x6B
  else if r = 0x6B then 0x212A
  else if r = 0x212A then 0x4B
  else if r = 0x53 then 0x73
  else if r = 0x73 then 0x17F
  else if r = 0x17F then 0x53
  else if 0x41 ≤ r ∧ r ≤ 0x5A then r + 32
  else if 0x61 ≤ r ∧ r ≤ 0x7A then r - 32
  else r

/-- The smallest code point with a case folding (`minFold` in `parse.go`). -/
def minFold : Nat := 0x0041

/-- The largest code point with a case folding (`maxFold` in `parse.go`). -/
def maxFold : Nat := 0x1e943

/-- A character class as a list of ranges `(lo, hi)`, both ends included. -/
abbrev RuneClass := List (Nat × Nat)

/-- The function `appendRange`, without the merging of adjacent ranges (the
set of code points is the same). -/
def appendRange (r : RuneClass) (lo hi : Nat) : RuneClass := r ++ [(lo, hi)]

/-- The inner loop of `appendFoldedRange`: the rest of the orbit of `c`
under `SimpleFold`, starting at `f`. -/
def foldOrbit (c : Nat) : Nat → Nat → RuneClass → RuneClass
  | 0, _, r => r
  | fuel + 1, f, r => if f = c then r else foldOrbit c fuel (SimpleFold f) (appendRange r f f)

/-- The function `appendFoldedRange` of `regexp/syntax/parse.go`: the range
with every case-folding equivalent of its members. -/
def appendFoldedRange (r : RuneClass) (lo hi : Nat) : RuneClass :=
  if lo ≤ minFold ∧ hi ≥ maxFold then appendRange r lo hi
  else if hi < minFold ∨ lo > maxFold then appendRange r lo hi
  else
    let r1 := if lo < minFold then appendRange r lo (minFold - 1) else r
    let lo1 := if lo < minFold then minFold else lo
    let r2 := if hi > maxFold then appendRange r1 (maxFold + 1) hi else r1
    let hi1 := if hi > maxFold then maxFold else hi
    (List.range (hi1 + 1 - lo1)).foldl
      (fun acc i => foldOrbit (lo1 + i) 4 (SimpleFold (lo1 + i)) (appendRange acc (lo1 + i) (lo1 + i))) r2

/-- The ranges of a bracket expression, as `parseClass` collects them: with
the flag `FoldCase` each range goes through `appendFoldedRange`. -/
def parseClass (foldCase : Bool) (items : List (Nat × Nat)) : RuneClass :=
  items.foldl (fun r p => if foldCase then appendFoldedRange r p.1 p.2 else appendRange r p.1 p.2) []

/-- Membership of a rune in a class (`Inst.MatchRune`). -/
def inClass (cl : RuneClass) (c : Char) : Bool :=
  cl.any (fun p => decide (p.1 ≤ c.toNat) && decide (c.toNat ≤ p.2))

/-- The syntax tree of a pattern, for the operators the pattern uses. -/
inductive Regexp where
  | charClass (cl : RuneClass)
  | concat (a b : Regexp)
  | quest (a : Regexp)
  | star (a : Regexp)
  | plus (a : Regexp)

/-- Greedy repetition of `body`: every way to iterate it from `s`, the
longer iterations first, then the way that stops at `s`.  An iteration that
consumes nothing is not repeated. -/
def loopRuns (body : List Char → List (List Char)) : Nat → List Char → List (List Char)
  | 0, s => [s]
  | fuel + 1, s =>
    (body s).flatMap (fun t => if t.length < s.length then loopRuns body fuel t else []) ++ [s]

/-- Every way the pattern matches at the start of `s`, as the list of the
remaining inputs, in the order in which a backtracking search tries them
(the leftmost-first preference order of package `regexp`). -/
def Regexp.runs : Regexp → List Char → List (List Char)
  | .charClass cl, s =>
    match s with
    | c :: t => if inClass cl c then [t] else []
    | [] => []
  | .concat a b, s => (a.runs s).flatMap b.runs
  | .quest a, s => a.runs s ++ [s]
  | .star a, s => loopRuns a.runs s.length s
  | .plus a, s => (a.runs s).flatMap (fun t => loopRuns a.runs t.length t)

/-- The search of `doExecute` from the suffix `s` that starts at position
`pos`: the first position where the pattern matches, with the end of the
preferred match there. -/
def searchFrom (re : Regexp) : List Char → Nat → Option (Nat × Nat)
  | [], pos =>
    match re.runs [] with
    | t :: _ => some (pos, pos + (0 - t.length))
    | [] => none
  | c :: s, pos =>
    match re.runs (c :: s) with
    | t :: _ => some (pos, pos + ((c :: s).length - t.length))
    | [] => searchFrom re s (pos + 1)

/-- The leftmost-first match of `re` in `src` at or after `pos`, as the pair
of its start and end (`Regexp.doExecute` with `ncap = 2`). -/
def doExecute (re : Regexp) (src : List Char) (pos : Nat) : Option (Nat × Nat) :=
  searchFrom re (src.drop pos) pos

/-- The slice `src[a:b]`. -/
def slice (src : List Char) (a b : Nat) : List Char := (src.drop a).take (b - a)

/-- The loop of `Regexp.allMatches`; `fuel` is the bound `n` on the number
of matches. -/
def allMatchesLoop (re : Regexp) (src : List Char) : Nat → Nat → Int → List (Nat × Nat)
  | 0, _, _ => []
  | fuel + 1, pos, prevMatchEnd =>
    if pos ≤ src.length then
      match doExecute re src pos with
      | none => []
      | some (a0, a1) =>
        if a1 = pos then
          let accept := decide ((a0 : Int) ≠ prevMatchEnd)
          let width := if pos < src.length then 1 else 0
          let pos1 := if width > 0 then pos + width else src.length + 1
          (if accept then [(a0, a1)] else []) ++ allMatchesLoop re src fuel pos1 a1
        else
          (a0, a1) :: allMatchesLoop re src fuel a1 a1
    else []

/-- The method `FindAllStringIndex(s, -1)`: a negative `n` stands for
`len(s) + 1`. -/
def FindAllStringIndex (re : Regexp) (s : List Char) : List (Nat × Nat) :=
  allMatchesLoop re s (s.length + 1) 0 (-1)

/-- The method `FindAllString(s, -1)`. -/
def FindAllString (re : Regexp) (s : List Char) : List (List Char) :=
  (FindAllStringIndex re s).map (fun a => slice s a.1 a.2)

/-- The loop of `Regexp.replaceAll`; `repl` is the callback, which may
change a state of type `σ`. -/
def replaceAllLoop {σ : Type} (re : Regexp) (src : List Char)
    (repl : σ → List Char → List Char × σ) :
    Nat → Nat → Nat → List Char → σ → List Char × σ
  | 0, lastMatchEnd, _, buf, st => (buf ++ src.drop lastMatchEnd, st)
  | fuel + 1, lastMatchEnd, searchPos, buf, st =>
    if searchPos ≤ src.length then
      match doExecute re src searchPos with
      | none => (buf ++ src.drop lastMatchEnd, st)
      | some (a0, a1) =>
        let buf1 := buf ++ slice src lastMatchEnd a0
        let out := if a1 > lastMatchEnd ∨ a0 = 0 then repl st (slice src a0 a1) else ([], st)
        let width := if searchPos < src.length then 1 else 0
        let searchPos1 :=
          if searchPos + width > a1 then searchPos + width
          else if searchPos + 1 > a1 then searchPos + 1
          else a1
        replaceAllLoop re src repl fuel a1 searchPos1 (buf1 ++ out.1) out.2
    else (buf ++ src.drop lastMatchEnd, st)

/-- The method `ReplaceAllStringFunc(src, repl)`. -/
def ReplaceAllStringFunc {σ : Type} (re : Regexp) (src : List Char)
    (repl : σ → List Char → List Char × σ) (st : σ) : List Char × σ :=
  replaceAllLoop re src repl (src.length + 2) 0 0 [] st

end regexp

/-! ## internal/masker -/

namespace masker

open regexp

/-- The class `[a-z0-9!#$%&'*+/=?^_\x60\x7b|\x7d~.-]` under `(?i)`. -/
def localClass : RuneClass :=
  parseClass true [(0x61, 0x7A), (0x30, 0x39), (0x21, 0x21), (0x23, 0x23), (0x24, 0x24),
    (0x25, 0x25), (0x26, 0x26), (0x27, 0x27), (0x2A, 0x2A), (0x2B, 0x2B), (0x2F, 0x2F),
    (0x3D, 0x3D), (0x3F, 0x3F), (0x5E, 0x5E), (0x5F, 0x5F), (0x60, 0x60), (0x7B, 0x7B),
    (0x7C, 0x7C), (0x7D, 0x7D), (0x7E, 0x7E), (0x2E, 0x2E), (0x2D, 0x2D)]

/-- The class `[a-z0-9]` under `(?i)`. -/
def alnumClass : RuneClass := parseClass true [(0x61, 0x7A), (0x30, 0x39)]

/-- The class `[a-z0-9-]` under `(?i)`. -/
def alnumDashClass : RuneClass := parseClass true [(0x61, 0x7A), (0x30, 0x39), (0x2D, 0x2D)]

/-- The literal `@` under `(?i)`. -/
def atClass : RuneClass := parseClass true [(0x40, 0x40)]

/-- The literal `\.` under `(?i)`. -/
def dotClass : RuneClass := parseClass true [(0x2E, 0x2E)]

/-- The sub-pattern `[a-z0-9](?:[a-z0-9-]*[a-z0-9])?`, one label of a domain. -/
def labelRegex : Regexp :=
  .concat (.charClass alnumClass)
    (.quest (.concat (.star (.charClass alnumDashClass)) (.charClass alnumClass)))

/-- The pattern
`(?i)[a-z0-9!#$%&'*+/=?^_\x60\x7b|\x7d~.-]+@[a-z0-9](?:[a-z0-9-]*[a-z0-9])?(?:\.[a-z0-9](?:[a-z0-9-]*[a-z0-9])?)+`. -/
def emailRegex : Regexp :=
  .concat (.plus (.charClass localClass))
    (.concat (.charClass atClass)
      (.concat labelRegex (.plus (.concat (.charClass dotClass) labelRegex))))

/-- A single email replacement. -/
structure Replacement where
  Original : String
  Masked : String
deriving DecidableEq, Repr

/-- The engine: the replacements recorded so far. -/
structure Masker where
  replacements : List Replacement
deriving DecidableEq, Repr

/-- A new engine, with an empty ledger. -/
def New : Masker := ⟨[]⟩

/-- The first 14 characters of the hexadecimal SHA-256 of the email. -/
def hashEmail (email : String) : String :=
  let hash := sha256.Sum256 (utf8.encode email.data)
  ⟨(fmt.Sprintf_x hash).take 14⟩

/-- The callback of `Mask`: hash the match and record the replacement. -/
def maskOne (m : Masker) (email : List Char) : List Char × Masker :=
  let masked := hashEmail ⟨email⟩
  (masked.data, { replacements := m.replacements ++ [⟨⟨email⟩, masked⟩] })

/-- The method `Mask`: the masked text and the engine after the call. -/
def Masker.Mask (m : Masker) (text : String) : String × Masker :=
  let r := ReplaceAllStringFunc emailRegex text.data maskOne m
  (⟨r.1⟩, r.2)

/-- The method `GetReplacements`. -/
def Masker.GetReplacements (m : Masker) : List Replacement := m.replacements

/-- The method `Reset`. -/
def Masker.Reset (_m : Masker) : Masker := ⟨[]⟩

end masker

/-! ## Notions used to state the properties -/

namespace fmt

/-- The lower-case hexadecimal rendering of a byte sequence: the two base-16
digits of every byte, high digit first, with the digit characters of
`Nat.digitChar`. -/
def lowerHex (b : List Nat) : List Char :=
  b.flatMap (fun x => [Nat.digitChar (x / 16), Nat.digitChar (x % 16)])

end fmt

namespace regexp

/-- The words a pattern matches. -/
def Regexp.Lang : Regexp → List Char → Prop
  | .charClass cl, w => ∃ c, w = [c] ∧ inClass cl c = true
  | .concat a b, w => ∃ u v, w = u ++ v ∧ a.Lang u ∧ b.Lang v
  | .quest a, w => w = [] ∨ a.Lang w
  | .star a, w => ∃ ws : List (List Char), w = ws.flatten ∧ ∀ u ∈ ws, a.Lang u
  | .plus a, w => ∃ u, ∃ ws : List (List Char), w = u ++ ws.flatten ∧ a.Lang u ∧ ∀ v ∈ ws, a.Lang v

/-- A pattern that matches no empty word. -/
def Regexp.NoEmpty (re : Regexp) : Prop := ¬ re.Lang []

/-- The output and final state of the replacement loop, read off a list of
match positions: the text between the matches is copied, each match is
handed to the callback. -/
def stitch {σ : Type} (src : List Char) (repl : σ → List Char → List Char × σ) :
    Nat → List (Nat × Nat) → σ → List Char × σ
  | e, [], st => (src.drop e, st)
  | e, a :: rest, st =>
    ((slice src e a.1 ++ (repl st (slice src a.1 a.2)).1)
        ++ (stitch src repl a.2 rest (repl st (slice src a.1 a.2)).2).1,
      (stitch src repl a.2 rest (repl st (slice src a.1 a.2)).2).2)

/-- Match positions in increasing order, without overlap, from `e` on. -/
def Chained (src : List Char) : Nat → List (Nat × Nat) → Prop
  | _, [] => True
  | e, a :: rest => e ≤ a.1 ∧ a.1 < a.2 ∧ a.2 ≤ src.length ∧ Chained src a.2 rest

def expand (cl : RuneClass) : List Nat := cl.flatMap (fun p => List.range' p.1 (p.2 + 1 - p.1))

/-- The text between the matches: before the first, between two successive
ones, after the last. -/
def gaps (src : List Char) : Nat → List (Nat × Nat) → List (List Char)
  | e, [] => [src.drop e]
  | e, a :: rest => slice src e a.1 :: gaps src a.2 rest

/-- The text `g0 ++ m1 ++ g1 ++ ... ++ mk ++ gk`. -/
def weave : List (List Char) → List (List Char) → List Char
  | g :: gs, m :: ms => g ++ m ++ weave gs ms
  | g :: _, [] => g
  | [], _ => []

end regexp

namespace masker

open regexp

/-- The ASCII letters and the digits. -/
def letterDigits : List Char :=
  "abcdefghijklmnopqrstuvwxyzABCDEFGHIJKLMNOPQRSTUVWXYZ0123456789".data

/-- The two further code points that fold to an ASCII letter: U+017F
(LATIN SMALL LETTER LONG S) and U+212A (KELVIN SIGN). -/
def foldedLetters : List Char := ['\u017f', '\u212a']

/-- The punctuation of the local part. -/
def localSpecials : List Char := "!#$%&\x27*+/=?^_\x60\x7b|\x7d~.-".data

/-- The characters the pattern takes for a letter or a digit. -/
def alnumChars : List Char := letterDigits ++ foldedLetters

/-- The characters the pattern takes in a local part. -/
def localChars : List Char := alnumChars ++ localSpecials

/-- A label of a domain over the letters and digits `alnum`: it is not
empty, starts and ends with a letter or digit, and holds only letters,
digits and hyphens. -/
def IsLabel (alnum : List Char) (l : List Char) : Prop :=
  l ≠ [] ∧ (∀ c ∈ l.head?, c ∈ alnum) ∧ (∀ c ∈ l.getLast?, c ∈ alnum) ∧
    ∀ c ∈ l, c ∈ alnum ∨ c = '-'

/-- Labels joined by single dots. -/
def dotted : List (List Char) → List Char
  | [] => []
  | l :: ls => l ++ ls.flatMap (fun x => '.' :: x)

/-- A domain: two or more labels joined by single dots. -/
def IsDomain (alnum : List Char) (D : List Char) : Prop :=
  ∃ labels : List (List Char), D = dotted labels ∧ 2 ≤ labels.length ∧
    ∀ l ∈ labels, IsLabel alnum l

/-- The shape `L ++ "@" ++ D` of an address: a non-empty local part `L` of
letters, digits and the characters `specials`, and a domain `D`. -/
def IsEmail (alnum specials : List Char) (w : List Char) : Prop :=
  ∃ L D : List Char,
    w = L ++ '@' :: D ∧ L ≠ [] ∧ (∀ c ∈ L, c ∈ alnum ∨ c ∈ specials) ∧ IsDomain alnum D

/-- The ledger entry of one match. -/
def entry (x : List Char) : Replacement := ⟨⟨x⟩, hashEmail ⟨x⟩⟩

/-- The token of one match, as a list of characters. -/
def token (x : List Char) : List Char := (hashEmail ⟨x⟩).data

/-- The local-part characters with the ASCII letters only. -/
def asciiLocalChars : List Char := letterDigits ++ localSpecials

end masker

namespace regexp

/-- The input `r` does not start with a character of the class. -/
def NoHead (cl : RuneClass) (r : List Char) : Prop := ∀ c ∈ r.head?, inClass cl c = false

end regexp

namespace masker

open regexp

/-- The pattern `\.label`. -/
def dotLabelRegex : Regexp := .concat (.charClass dotClass) labelRegex

/-- One call on an engine. -/
inductive Call where
  | mask (text : String)
  | reset

/-- The engine after one call. -/
def step (m : Masker) : Call → Masker
  | .mask text => (m.Mask text).2
  | .reset => m.Reset

/-- The engine after a sequence of calls, first call first. -/
def run (m : Masker) (calls : List Call) : Masker := calls.foldl step m

/-- Whether a call is a `Reset`. -/
def Call.isReset : Call → Bool
  | .mask _ => false
  | .reset => true

/-- The calls made after the most recent `Reset` (all of them when there is
no `Reset`). -/
def sinceReset : List Call → List Call
  | [] => []
  | c :: cs => if cs.any Call.isReset then sinceReset cs else if c.isReset then cs else c :: cs

/-- The ledger entries of one call: one per match for a `Mask`, none for a
`Reset`. -/
def entriesOf : Call → List Replacement
  | .mask text => (FindAllString emailRegex text.data).map entry
  | .reset => []

end masker

namespace bufio

/-- The function `dropCR`: a line without its final carriage return. -/
def dropCR (l : List Char) : List Char := if l.getLast? = some '\r' then l.dropLast else l

/-- The tokens a `Scanner` with the split function `ScanLines` and a buffer
of `maxTokenSize` bytes delivers on the rest `s` of the input, `cur` being
the part of the current line already read; the flag tells whether scanning
stopped with `ErrTooLong`.  A line is delivered when it is shorter than the
buffer; the last line needs no newline and is dropped when empty. -/
def scanLines (maxTokenSize : Nat) : List Char → List Char → List (List Char) × Bool
  | [], cur =>
    if cur = [] then ([], false)
    else if maxTokenSize ≤ (utf8.encode cur).length then ([], true)
    else ([dropCR cur], false)
  | c :: s, cur =>
    if c = '\n' then
      if maxTokenSize ≤ (utf8.encode cur).length then ([], true)
      else (dropCR cur :: (scanLines maxTokenSize s []).1, (scanLines maxTokenSize s []).2)
    else scanLines maxTokenSize s (cur ++ [c])

end bufio

namespace maskat

open masker

/-- The name of the environment variable of the opt-in. -/
def envListSensitiveData : String := "MASKAT_LIST_SENSITIVE_DATA"

/-- The size of the line buffer, `1024 * 1024`. -/
def maxCapacity : Nat := 1024 * 1024

/-- The lines of an input in the sense of the description, not taken from the
code: the pieces of the input between its newlines, a final newline closing
the last line instead of opening an empty one.  A carriage return before a
newline belongs to its line. -/
def specLines (stdin : List Char) : List (List Char) :=
  if (stdin.splitOn '\n').getLast? = some [] then (stdin.splitOn '\n').dropLast
  else stdin.splitOn '\n'

/-- A line in the sense of the description without the carriage return at
its end, if it has one; not taken from the code. -/
def withoutFinalCR : List Char → List Char
  | [] => []
  | [c] => if c = '\r' then [] else [c]
  | c :: d :: t => c :: withoutFinalCR (d :: t)

/-- What a run of the program leaves behind: the two output streams and the
exit status. -/
structure Output where
  stdout : List Char
  stderr : List Char
  exit : Nat
deriving DecidableEq, Repr

/-- The function `os.Getenv`: the value of a variable, empty when unset. -/
def Getenv (env : String → Option String) (key : String) : String := (env key).getD ""

/-- The text `printUsage` writes to standard error. -/
def printUsage : List Char :=
  ("Usage: maskat [command]\n" ++ "\n" ++ "maskat is 'cat with mask sensitive data'\n" ++ "\n"
    ++ "Commands:\n"
    ++ "  (none)              Read from stdin and output masked text to stdout\n"
    ++ "  list-sensitive-data List all replacements (original -> masked)\n"
    ++ "                      Requires MASKAT_LIST_SENSITIVE_DATA environment variable\n"
    ++ "  help, -h, --help    Show this help message\n").data

/-- The scanning loop of `runMask`: every line is masked and printed with a
newline; the engine is carried from line to line. -/
def maskLines (m : Masker) : List (List Char) → List Char × Masker
  | [] => ([], m)
  | line :: rest =>
    ((m.Mask ⟨line⟩).1.data ++ '\n' :: (maskLines (m.Mask ⟨line⟩).2 rest).1,
      (maskLines (m.Mask ⟨line⟩).2 rest).2)

/-- The message for a failed scan. -/
def readError : List Char := "Error reading input: bufio.Scanner: token too long\n".data

/-- The function `runMask`. -/
def runMask (stdin : List Char) : Output :=
  let sc := bufio.scanLines maxCapacity stdin []
  let out := maskLines New sc.1
  if sc.2 then { stdout := out.1, stderr := readError, exit := 1 }
  else { stdout := out.1, stderr := [], exit := 0 }

/-- The line `original -> masked` of one replacement. -/
def listLine (r : Replacement) : List Char := r.Original.data ++ " -> ".data ++ r.Masked.data ++ ['\n']

/-- The function `runListSensitiveData`. -/
def runListSensitiveData (env : String → Option String) (stdin : List Char) : Output :=
  if Getenv env envListSensitiveData = "" then
    { stdout := [],
      stderr := ("Error: " ++ envListSensitiveData ++ " environment variable is not set\n"
        ++ "This command requires explicit opt-in for security reasons.\n").data,
      exit := 1 }
  else
    let sc := bufio.scanLines maxCapacity stdin []
    let out := maskLines New sc.1
    if sc.2 then { stdout := [], stderr := readError, exit := 1 }
    else { stdout := out.2.GetReplacements.flatMap listLine, stderr := [], exit := 0 }

/-- The function `main`; `args` is `os.Args`, the name of the program
first. -/
def main (args : List String) (env : String → Option String) (stdin : List Char) : Output :=
  match args with
  | _ :: cmd :: _ =>
    if cmd = "list-sensitive-data" then runListSensitiveData env stdin
    else if cmd = "-h" ∨ cmd = "--help" ∨ cmd = "help" then
      { stdout := [], stderr := printUsage, exit := 0 }
    else
      { stdout := [],
        stderr := ("Unknown command: " ++ cmd ++ "\n").data ++ printUsage,
        exit := 1 }
  | _ => runMask stdin

end maskat

namespace heap

open regexp masker

/-- A slice header: the backing array (its index in the heap), the length
and the capacity. -/
structure Slice where
  array : Nat
  len : Nat
  cap : Nat
deriving DecidableEq, Repr

/-- The backing arrays allocated so far. -/
abbrev Heap := List (List Replacement)

/-- The zero value of `Replacement`. -/
def zero : Replacement := ⟨"", ""⟩

/-- The elements `s[0], ..., s[len-1]` a slice shows. -/
def Slice.elems (h : Heap) (s : Slice) : List Replacement := (h.getD s.array []).take s.len

/-- The expression `make([]Replacement, 0)`: a slice of length and capacity
zero on a new array. -/
def make (h : Heap) : Heap × Slice := (h ++ [[]], { array := h.length, len := 0, cap := 0 })

/-- The assignment `s[i] = v`, which writes through to the backing array
(and panics, leaving the heap as it is, when `i` is out of range). -/
def Slice.set (h : Heap) (s : Slice) (i : Nat) (v : Replacement) : Heap :=
  if i < s.len then h.set s.array ((h.getD s.array []).set i v) else h

/-- The capacity `runtime.growslice` chooses for one more element, before
it is rounded up to an allocation size class. -/
def growslice (oldCap newLen : Nat) : Nat :=
  if 2 * oldCap < newLen then newLen
  else if oldCap < 256 then 2 * oldCap
  else oldCap + (oldCap + 768) / 4

/-- The built-in `append(s, v)` under the capacity policy `grow`: with room
left the element is written into the backing array in place, otherwise the
elements are copied to a new, larger array. -/
def append (grow : Nat → Nat → Nat) (h : Heap) (s : Slice) (v : Replacement) : Heap × Slice :=
  if s.len < s.cap then
    (h.set s.array ((h.getD s.array []).set s.len v), { s with len := s.len + 1 })
  else
    (h ++ [s.elems h ++ [v] ++ List.replicate (grow s.cap (s.len + 1) - (s.len + 1)) zero],
      { array := h.length, len := s.len + 1, cap := grow s.cap (s.len + 1) })

/-- The engine with its ledger held as a slice. -/
structure Masker where
  replacements : Slice
deriving DecidableEq, Repr

/-- The function `New`. -/
def New (h : Heap) : Heap × Masker := ((make h).1, { replacements := (make h).2 })

/-- The callback of `Mask` on the heap: the ledger slice is replaced by the
result of `append`. -/
def maskOne (grow : Nat → Nat → Nat) (st : Heap × Slice) (email : List Char) :
    List Char × (Heap × Slice) :=
  ((hashEmail ⟨email⟩).data, append grow st.1 st.2 ⟨⟨email⟩, hashEmail ⟨email⟩⟩)

/-- The method `Mask` on the heap. -/
def Masker.Mask (grow : Nat → Nat → Nat) (h : Heap) (m : Masker) (text : String) :
    String × (Heap × Masker) :=
  let r := ReplaceAllStringFunc emailRegex text.data (maskOne grow) (h, m.replacements)
  (⟨r.1⟩, (r.2.1, { replacements := r.2.2 }))

/-- The method `GetReplacements`: the slice header of the ledger itself. -/
def Masker.GetReplacements (m : Masker) : Slice := m.replacements

/-- The method `Reset`. -/
def Masker.Reset (h : Heap) (_m : Masker) : Heap × Masker :=
  ((make h).1, { replacements := (make h).2 })

/-- A slice that lies inside an allocated array. -/
def Slice.Valid (h : Heap) (s : Slice) : Prop :=
  s.array < h.length ∧ s.len ≤ (h.getD s.array []).length ∧ s.cap ≤ (h.getD s.array []).length

end heap

namespace regexp

/-- Whether every class of the pattern rejects the character `c`. -/
def Regexp.rejects (c : Char) : Regexp → Bool
  | .charClass cl => !inClass cl c
  | .concat a b => a.rejects c && b.rejects c
  | .quest a => a.rejects c
  | .star a => a.rejects c
  | .plus a => a.rejects c

/-- The matches of `re` in `src` from position `pos` on, as `allMatches`
finds them with enough fuel. -/
def matchesFrom (re : Regexp) (src : List Char) (pos : Nat) : List (Nat × Nat) :=
  allMatchesLoop re src (src.length + 1 - pos) pos 0

/-- A match position moved `d` places to the right. -/
def shift (d : Nat) (a : Nat × Nat) : Nat × Nat := (a.1 + d, a.2 + d)

end regexp

namespace masker

open regexp

/-- Where a greedy match must stop: the input does not go on with a letter
or digit, nor with a dot and a letter or digit. -/
def Stop (r : List Char) : Prop :=
  NoHead alnumClass r ∧ ∀ (d : Char) (w : List Char), r = '.' :: d :: w → inClass alnumClass d = false

end masker

/-! ## Theorems -/

namespace sha256

theorem bigEndian_length (n x : Nat) : (bigEndian n x).length = n := by
  simp [bigEndian]

theorem bigEndian_lt (n x b : Nat) (h : b ∈ bigEndian n x) : b < 256 := by
  simp only [bigEndian, List.mem_map] at h
  obtain ⟨i, _, rfl⟩ := h
  exact Nat.mod_lt _ (by decide)

theorem Sum256_length (data : List Nat) : (Sum256 data).length = 32 := by
  simp [Sum256, bigEndian_length]

theorem Sum256_lt (data : List Nat) (b : Nat) (h : b ∈ Sum256 data) : b < 256 := by
  simp only [Sum256, List.mem_append] at h
  rcases h with ((((((h | h) | h) | h) | h) | h) | h) | h <;> exact bigEndian_lt _ _ _ h

end sha256

namespace fmt

theorem digit_mem (n : Nat) (h : n < 16) : digit n ∈ ldigits := by
  interval_cases n <;> decide

theorem Sprintf_x_length (b : List Nat) : (Sprintf_x b).length = 2 * b.length := by
  induction b with
  | nil => rfl
  | cons x xs ih =>
    simp only [Sprintf_x, List.flatMap_cons, List.length_append, List.length_cons] at ih ⊢
    simp only [List.length_nil, ih]
    omega

theorem Sprintf_x_mem (b : List Nat) (hb : ∀ x ∈ b, x < 256) (c : Char) (h : c ∈ Sprintf_x b) :
    c ∈ ldigits := by
  simp only [Sprintf_x, List.mem_flatMap] at h
  obtain ⟨x, hx, hc⟩ := h
  have h256 := hb x hx
  simp only [List.mem_cons, List.mem_singleton, List.not_mem_nil, or_false] at hc
  rcases hc with rfl | rfl
  · exact digit_mem _ (by omega)
  · exact digit_mem _ (Nat.mod_lt _ (by decide))

theorem digit_eq_digitChar (n : Nat) (h : n < 16) : digit n = Nat.digitChar n := by
  interval_cases n <;> rfl

theorem Sprintf_x_eq_lowerHex (b : List Nat) (hb : ∀ x ∈ b, x < 256) :
    Sprintf_x b = lowerHex b := by
  induction b with
  | nil => rfl
  | cons x xs ih =>
    have hx : x < 256 := hb x (List.mem_cons_self _ _)
    have ih1 := ih (fun y hy => hb y (List.mem_cons_of_mem _ hy))
    simp only [Sprintf_x, lowerHex, List.flatMap_cons] at ih1 ⊢
    rw [ih1, digit_eq_digitChar _ (by omega), digit_eq_digitChar _ (Nat.mod_lt _ (by decide))]

end fmt

namespace masker

open regexp

theorem hashEmail_data (s : String) :
    (hashEmail s).data = (fmt.Sprintf_x (sha256.Sum256 (utf8.encode s.data))).take 14 := rfl

theorem hashEmail_length (s : String) : (hashEmail s).data.length = 14 := by
  rw [hashEmail_data, List.length_take, fmt.Sprintf_x_length, sha256.Sum256_length]
  rfl

theorem hashEmail_mem (s : String) (c : Char) (h : c ∈ (hashEmail s).data) :
    c ∈ fmt.ldigits := by
  rw [hashEmail_data] at h
  exact fmt.Sprintf_x_mem _ (sha256.Sum256_lt _) c (List.mem_of_mem_take h)

end masker

namespace regexp

theorem loopRuns_sound (body : List Char → List (List Char)) (P : List Char → Prop)
    (hb : ∀ s t, t ∈ body s → ∃ w, s = w ++ t ∧ P w) :
    ∀ n s t, t ∈ loopRuns body n s →
      ∃ ws : List (List Char), s = ws.flatten ++ t ∧ ∀ u ∈ ws, P u := by
  intro n
  induction n with
  | zero =>
    intro s t h
    simp only [loopRuns, List.mem_singleton] at h
    exact ⟨[], by simp [h], by simp⟩
  | succ n ih =>
    intro s t h
    simp only [loopRuns, List.mem_append, List.mem_flatMap, List.mem_singleton] at h
    rcases h with ⟨x, hx, ht⟩ | h
    · split at ht
      · obtain ⟨w, hw, hP⟩ := hb s x hx
        obtain ⟨ws, hws, hall⟩ := ih x t ht
        refine ⟨w :: ws, ?_, ?_⟩
        · simp [hw, hws]
        · intro u hu
          rcases List.mem_cons.1 hu with rfl | hu
          · exact hP
          · exact hall u hu
      · simp at ht
    · exact ⟨[], by simp [h], by simp⟩

theorem Regexp.runs_sound : ∀ (re : Regexp) (s t : List Char), t ∈ re.runs s →
    ∃ w, s = w ++ t ∧ re.Lang w := by
  intro re
  induction re with
  | charClass cl =>
    intro s t h
    cases s with
    | nil => simp [Regexp.runs] at h
    | cons c s =>
      simp only [Regexp.runs] at h
      split at h
      · rename_i hc
        simp only [List.mem_singleton] at h
        exact ⟨[c], by simp [h], c, rfl, hc⟩
      · simp at h
  | concat a b iha ihb =>
    intro s t h
    simp only [Regexp.runs, List.mem_flatMap] at h
    obtain ⟨x, hx, ht⟩ := h
    obtain ⟨u, hu, hLu⟩ := iha s x hx
    obtain ⟨v, hv, hLv⟩ := ihb x t ht
    exact ⟨u ++ v, by simp [hu, hv], u, v, rfl, hLu, hLv⟩
  | quest a iha =>
    intro s t h
    simp only [Regexp.runs, List.mem_append, List.mem_singleton] at h
    rcases h with h | h
    · obtain ⟨w, hw, hL⟩ := iha s t h
      exact ⟨w, hw, Or.inr hL⟩
    · exact ⟨[], by simp [h], Or.inl rfl⟩
  | star a iha =>
    intro s t h
    simp only [Regexp.runs] at h
    obtain ⟨ws, hws, hall⟩ := loopRuns_sound a.runs a.Lang iha _ s t h
    exact ⟨ws.flatten, hws, ws, rfl, hall⟩
  | plus a iha =>
    intro s t h
    simp only [Regexp.runs, List.mem_flatMap] at h
    obtain ⟨x, hx, ht⟩ := h
    obtain ⟨u, hu, hLu⟩ := iha s x hx
    obtain ⟨ws, hws, hall⟩ := loopRuns_sound a.runs a.Lang iha _ x t ht
    exact ⟨u ++ ws.flatten, by simp [hu, hws], u, ws, rfl, hLu, hall⟩

theorem Regexp.runs_length_lt (re : Regexp) (hne : re.NoEmpty) (s t : List Char)
    (h : t ∈ re.runs s) : t.length < s.length := by
  obtain ⟨w, hw, hL⟩ := re.runs_sound s t h
  cases w with
  | nil => exact absurd hL hne
  | cons c w => simp [hw]; omega

theorem Regexp.runs_length_le (re : Regexp) (s t : List Char)
    (h : t ∈ re.runs s) : t.length ≤ s.length := by
  obtain ⟨w, hw, _⟩ := re.runs_sound s t h
  simp [hw]

/-- The result of a successful search, in terms of the searched suffix. -/
theorem searchFrom_some (re : Regexp) : ∀ (s : List Char) (pos a0 a1 : Nat),
    searchFrom re s pos = some (a0, a1) →
    ∃ g r t tl, s = g ++ r ∧ a0 = pos + g.length ∧ re.runs r = t :: tl ∧
      a1 = a0 + (r.length - t.length) ∧ ∀ k, k < g.length → re.runs (g.drop k ++ r) = [] := by
  intro s
  induction s with
  | nil =>
    intro pos a0 a1 h
    simp only [searchFrom] at h
    split at h
    · rename_i t tl ht
      simp only [Option.some.injEq, Prod.mk.injEq] at h
      exact ⟨[], [], t, tl, rfl, by simp [h.1], ht, by simp [← h.2, ← h.1], by simp⟩
    · simp at h
  | cons c s ih =>
    intro pos a0 a1 h
    simp only [searchFrom] at h
    split at h
    · rename_i t tl ht
      simp only [Option.some.injEq, Prod.mk.injEq] at h
      exact ⟨[], c :: s, t, tl, rfl, by simp [h.1], ht, by simp [← h.2, ← h.1], by simp⟩
    · rename_i hnil
      obtain ⟨g, r, t, tl, hs, ha0, hr, ha1, hg⟩ := ih (pos + 1) a0 a1 h
      refine ⟨c :: g, r, t, tl, by simp [hs], by simp [ha0]; omega, hr, ha1, ?_⟩
      intro k hk
      cases k with
      | zero => simpa [hs] using hnil
      | succ k =>
        simp only [List.drop_succ_cons]
        exact hg k (by simpa using hk)

theorem searchFrom_none (re : Regexp) : ∀ (s : List Char) (pos : Nat),
    searchFrom re s pos = none → ∀ k, re.runs (s.drop k) = [] := by
  intro s
  induction s with
  | nil =>
    intro pos h k
    simp only [searchFrom] at h
    split at h
    · simp at h
    · simpa
  | cons c s ih =>
    intro pos h k
    simp only [searchFrom] at h
    split at h
    · simp at h
    · rename_i hnil
      cases k with
      | zero => simpa using hnil
      | succ k => simpa using ih (pos + 1) h k

theorem searchFrom_hit (re : Regexp) (r t : List Char) (pos : Nat) (tl : List (List Char))
    (h : re.runs r = t :: tl) : searchFrom re r pos = some (pos, pos + (r.length - t.length)) := by
  cases r with
  | nil => simp [searchFrom, h]
  | cons c r => simp [searchFrom, h]

theorem searchFrom_skip (re : Regexp) : ∀ (g r : List Char) (pos : Nat),
    (∀ k, k < g.length → re.runs (g.drop k ++ r) = []) →
    searchFrom re (g ++ r) pos = searchFrom re r (pos + g.length) := by
  intro g
  induction g with
  | nil => intro r pos _; simp
  | cons c g ih =>
    intro r pos h
    have h0 := h 0 (by simp)
    simp only [List.drop_zero, List.cons_append] at h0
    have h1 : searchFrom re (c :: (g ++ r)) pos = searchFrom re (g ++ r) (pos + 1) := by
      rw [searchFrom, h0]
    rw [List.cons_append, h1,
      ih r (pos + 1) (fun k hk => by simpa using h (k + 1) (by simpa using hk))]
    simp only [List.length_cons]
    congr 1
    omega

theorem slice_eq_of_drop (src w t : List Char) (a0 : Nat) (h : src.drop a0 = w ++ t) :
    slice src a0 (a0 + ((src.drop a0).length - t.length)) = w := by
  simp [slice, h]

/-- What `doExecute` returns for a pattern without empty matches. -/
theorem doExecute_some (re : Regexp) (hne : re.NoEmpty) (src : List Char) (pos a0 a1 : Nat)
    (hpos : pos ≤ src.length) (h : doExecute re src pos = some (a0, a1)) :
    pos ≤ a0 ∧ a0 < a1 ∧ a1 ≤ src.length ∧
      ∃ w t tl, src.drop a0 = w ++ t ∧ re.runs (src.drop a0) = t :: tl ∧ re.Lang w ∧
        slice src a0 a1 = w ∧
        ∀ k, pos ≤ k → k < a0 → re.runs (src.drop k) = [] := by
  obtain ⟨g, r, t, tl, hs, ha0, hr, ha1, hg⟩ := searchFrom_some re _ _ _ _ h
  have hlen : (src.drop pos).length = g.length + r.length := by rw [hs]; simp
  rw [List.length_drop] at hlen
  have hdrop : src.drop a0 = r := by
    rw [ha0, ← List.drop_drop, hs]
    simp
  have hmem : t ∈ re.runs r := by rw [hr]; exact List.mem_cons_self _ _
  obtain ⟨w, hw, hL⟩ := re.runs_sound r t hmem
  have hlt := re.runs_length_lt hne r t hmem
  refine ⟨by omega, by omega, by omega, w, t, tl, by rw [hdrop, hw], by rw [hdrop, hr], hL, ?_, ?_⟩
  · rw [ha1, ← hdrop]
    exact slice_eq_of_drop src w t a0 (by rw [hdrop, hw])
  · intro k hk1 hk2
    have := hg (k - pos) (by omega)
    rw [← List.drop_append_of_le_length (by omega), ← hs, List.drop_drop] at this
    rwa [show pos + (k - pos) = k by omega] at this

theorem allMatchesLoop_step (re : Regexp) (hne : re.NoEmpty) (src : List Char)
    (fuel pos : Nat) (prev : Int) (hpos : pos ≤ src.length) :
    allMatchesLoop re src (fuel + 1) pos prev =
      match doExecute re src pos with
      | none => []
      | some (a0, a1) => (a0, a1) :: allMatchesLoop re src fuel a1 a1 := by
  rw [allMatchesLoop, if_pos hpos]
  cases h : doExecute re src pos with
  | none => rfl
  | some a =>
    obtain ⟨a0, a1⟩ := a
    obtain ⟨h1, h2, _⟩ := doExecute_some re hne src pos a0 a1 hpos h
    have hne1 : a1 ≠ pos := by omega
    simp only [if_neg hne1]

theorem replaceAllLoop_step {σ : Type} (re : Regexp) (hne : re.NoEmpty) (src : List Char)
    (repl : σ → List Char → List Char × σ) (fuel e : Nat) (buf : List Char) (st : σ)
    (he : e ≤ src.length) :
    replaceAllLoop re src repl (fuel + 1) e e buf st =
      match doExecute re src e with
      | none => (buf ++ src.drop e, st)
      | some (a0, a1) =>
        replaceAllLoop re src repl fuel a1 a1
          (buf ++ slice src e a0 ++ (repl st (slice src a0 a1)).1) (repl st (slice src a0 a1)).2 := by
  rw [replaceAllLoop, if_pos he]
  cases h : doExecute re src e with
  | none => rfl
  | some a =>
    obtain ⟨a0, a1⟩ := a
    obtain ⟨h1, h2, _⟩ := doExecute_some re hne src e a0 a1 he h
    have c1 : a1 > e ∨ a0 = 0 := Or.inl (by omega)
    have c2 : ¬ (e + (if e < src.length then 1 else 0) > a1) := by split <;> omega
    have c3 : ¬ (e + 1 > a1) := by omega
    simp only [if_pos c1, if_neg c2, if_neg c3]

/-- The two loops of package `regexp` visit the same matches: the
replacement loop produces what `stitch` reads off the list of `allMatches`. -/
theorem replaceAllLoop_eq_stitch {σ : Type} (re : Regexp) (hne : re.NoEmpty) (src : List Char)
    (repl : σ → List Char → List Char × σ) :
    ∀ (f1 f2 pos : Nat) (prev : Int) (buf : List Char) (st : σ),
      pos ≤ src.length → src.length - pos < f1 → src.length - pos < f2 →
      replaceAllLoop re src repl f2 pos pos buf st =
        (buf ++ (stitch src repl pos (allMatchesLoop re src f1 pos prev) st).1,
          (stitch src repl pos (allMatchesLoop re src f1 pos prev) st).2) := by
  intro f1
  induction f1 with
  | zero => intro f2 pos prev buf st _ h; omega
  | succ f1 ih =>
    intro f2 pos prev buf st hpos h1 h2
    cases f2 with
    | zero => omega
    | succ f2 =>
      rw [replaceAllLoop_step re hne src repl f2 pos buf st hpos,
        allMatchesLoop_step re hne src f1 pos prev hpos]
      cases h : doExecute re src pos with
      | none => simp [stitch]
      | some a =>
        obtain ⟨a0, a1⟩ := a
        obtain ⟨h3, h4, h5, _⟩ := doExecute_some re hne src pos a0 a1 hpos h
        simp only []
        rw [ih f2 a1 a1 _ _ h5 (by omega) (by omega)]
        simp [stitch, List.append_assoc]

theorem ReplaceAllStringFunc_eq_stitch {σ : Type} (re : Regexp) (hne : re.NoEmpty)
    (src : List Char) (repl : σ → List Char → List Char × σ) (st : σ) :
    ReplaceAllStringFunc re src repl st = stitch src repl 0 (FindAllStringIndex re src) st := by
  rw [ReplaceAllStringFunc, FindAllStringIndex,
    replaceAllLoop_eq_stitch re hne src repl (src.length + 1) (src.length + 2) 0 (-1) [] st
      (Nat.zero_le _) (by omega) (by omega)]
  simp

theorem allMatchesLoop_chained (re : Regexp) (hne : re.NoEmpty) (src : List Char) :
    ∀ (fuel pos : Nat) (prev : Int), pos ≤ src.length →
      Chained src pos (allMatchesLoop re src fuel pos prev) := by
  intro fuel
  induction fuel with
  | zero => intro pos prev _; simp [allMatchesLoop, Chained]
  | succ fuel ih =>
    intro pos prev hpos
    rw [allMatchesLoop_step re hne src fuel pos prev hpos]
    cases h : doExecute re src pos with
    | none => simp [Chained]
    | some a =>
      obtain ⟨a0, a1⟩ := a
      obtain ⟨h3, h4, h5, _⟩ := doExecute_some re hne src pos a0 a1 hpos h
      exact ⟨h3, h4, h5, ih a1 a1 h5⟩

/-- Every match position returned by `allMatches` is a place where the
pattern matches, and the matched text is a word of the pattern. -/
theorem allMatchesLoop_mem (re : Regexp) (hne : re.NoEmpty) (src : List Char) :
    ∀ (fuel pos : Nat) (prev : Int) (a : Nat × Nat), pos ≤ src.length →
      a ∈ allMatchesLoop re src fuel pos prev →
      ∃ w t tl, src.drop a.1 = w ++ t ∧ re.runs (src.drop a.1) = t :: tl ∧ re.Lang w ∧
        slice src a.1 a.2 = w := by
  intro fuel
  induction fuel with
  | zero => intro pos prev a _ h; simp [allMatchesLoop] at h
  | succ fuel ih =>
    intro pos prev a hpos h
    rw [allMatchesLoop_step re hne src fuel pos prev hpos] at h
    cases hd : doExecute re src pos with
    | none => rw [hd] at h; simp at h
    | some b =>
      obtain ⟨a0, a1⟩ := b
      rw [hd] at h
      obtain ⟨h3, h4, h5, w, t, tl, e1, e2, e3, e4, _⟩ := doExecute_some re hne src pos a0 a1 hpos hd
      rcases List.mem_cons.1 h with rfl | h
      · exact ⟨w, t, tl, e1, e2, e3, e4⟩
      · exact ih a1 a1 a h5 h

theorem inClass_iff_expand (cl : RuneClass) (c : Char) :
    inClass cl c = true ↔ c.toNat ∈ expand cl := by
  simp only [inClass, expand, List.any_eq_true, List.mem_flatMap, List.mem_range', Bool.and_eq_true,
    decide_eq_true_eq]
  constructor
  · rintro ⟨p, hp, h1, h2⟩
    exact ⟨p, hp, c.toNat - p.1, by omega, by omega⟩
  · rintro ⟨p, hp, i, h1, h2⟩
    exact ⟨p, hp, by omega, by omega⟩

theorem toNat_mem_map (c : Char) (l : List Char) : c.toNat ∈ l.map Char.toNat ↔ c ∈ l := by
  simp only [List.mem_map]
  constructor
  · rintro ⟨d, hd, h⟩
    have : d = c := Char.ext (UInt32.ext h)
    exact this ▸ hd
  · intro h
    exact ⟨c, h, rfl⟩

theorem inClass_iff_mem (cl : RuneClass) (l : List Char)
    (h1 : ∀ n ∈ expand cl, n ∈ l.map Char.toNat) (h2 : ∀ n ∈ l.map Char.toNat, n ∈ expand cl)
    (c : Char) : inClass cl c = true ↔ c ∈ l := by
  rw [inClass_iff_expand, ← toNat_mem_map]
  exact ⟨h1 _, h2 _⟩

theorem gaps_length (src : List Char) : ∀ (idx : List (Nat × Nat)) (e : Nat),
    (gaps src e idx).length = idx.length + 1 := by
  intro idx
  induction idx with
  | nil => intro e; rfl
  | cons a rest ih => intro e; simp [gaps, ih]

theorem slice_append_drop (src : List Char) (e a0 a1 : Nat) (h1 : e ≤ a0) (h2 : a0 ≤ a1) :
    slice src e a0 ++ slice src a0 a1 ++ src.drop a1 = src.drop e := by
  have k1 : src.drop a0 = (src.drop e).drop (a0 - e) := by
    rw [List.drop_drop]; congr 1; omega
  have k2 : src.drop a1 = (src.drop a0).drop (a1 - a0) := by
    rw [List.drop_drop]; congr 1; omega
  rw [slice, slice, k2, List.append_assoc, List.take_append_drop, k1, List.take_append_drop]

theorem weave_gaps (src : List Char) : ∀ (idx : List (Nat × Nat)) (e : Nat),
    Chained src e idx → weave (gaps src e idx) (idx.map (fun a => slice src a.1 a.2)) = src.drop e := by
  intro idx
  induction idx with
  | nil => intro e _; rfl
  | cons a rest ih =>
    intro e h
    obtain ⟨h1, h2, _, h4⟩ := h
    simp only [gaps, List.map_cons, weave]
    rw [ih a.2 h4]
    exact slice_append_drop src e a.1 a.2 h1 (Nat.le_of_lt h2)

theorem mem_weave_sub : ∀ (ms gs : List (List Char)) (m : List Char),
    m ∈ ms → ms.length < gs.length → m <:+: weave gs ms := by
  intro ms
  induction ms with
  | nil => intro gs m h; simp at h
  | cons x ms ih =>
    intro gs m h hlen
    cases gs with
    | nil => simp at hlen
    | cons g gs =>
      simp only [weave]
      rcases List.mem_cons.1 h with rfl | h
      · exact ⟨g, weave gs ms, rfl⟩
      · obtain ⟨p, q, hpq⟩ := ih gs m h (by simpa using hlen)
        exact ⟨g ++ x ++ p, q, by simp [← hpq, List.append_assoc]⟩

end regexp

namespace masker

open regexp

theorem inClass_alnum (c : Char) : inClass alnumClass c = true ↔ c ∈ alnumChars :=
  inClass_iff_mem alnumClass alnumChars (by decide) (by decide) c

theorem inClass_alnumDash (c : Char) :
    inClass alnumDashClass c = true ↔ c ∈ alnumChars ∨ c = '-' := by
  rw [inClass_iff_mem alnumDashClass (alnumChars ++ ['-']) (by decide) (by decide) c]
  simp

theorem inClass_local (c : Char) : inClass localClass c = true ↔ c ∈ localChars :=
  inClass_iff_mem localClass localChars (by decide) (by decide) c

theorem inClass_at (c : Char) : inClass atClass c = true ↔ c = '@' := by
  rw [inClass_iff_mem atClass ['@'] (by decide) (by decide) c]
  simp

theorem inClass_dot (c : Char) : inClass dotClass c = true ↔ c = '.' := by
  rw [inClass_iff_mem dotClass ['.'] (by decide) (by decide) c]
  simp

theorem Lang_star_class (cl : RuneClass) (w : List Char)
    (h : (Regexp.star (.charClass cl)).Lang w) : ∀ c ∈ w, inClass cl c = true := by
  obtain ⟨ws, rfl, hall⟩ := h
  intro c hc
  obtain ⟨x, hx, hcx⟩ := List.mem_flatten.1 hc
  obtain ⟨d, rfl, hd⟩ := hall x hx
  simp only [List.mem_singleton] at hcx
  exact hcx ▸ hd

theorem Lang_label (l : List Char) (h : labelRegex.Lang l) : IsLabel alnumChars l := by
  obtain ⟨u, v, rfl, ⟨c, rfl, hc⟩, hv⟩ := h
  rw [inClass_alnum] at hc
  rcases hv with rfl | ⟨u1, v1, rfl, hstar, ⟨e, rfl, he⟩⟩
  · refine ⟨by simp, by simpa using hc, by simpa using hc, ?_⟩
    intro x hx
    simp only [List.append_nil, List.mem_singleton] at hx
    exact Or.inl (hx ▸ hc)
  · rw [inClass_alnum] at he
    have hmid := Lang_star_class _ _ hstar
    refine ⟨by simp, by simpa using hc, ?_, ?_⟩
    · intro x hx
      have : ([c] ++ (u1 ++ [e])).getLast? = some e := by
        rw [← List.append_assoc, List.getLast?_append]
        simp
      rw [this] at hx
      simp only [Option.mem_def, Option.some.injEq] at hx
      exact hx ▸ he
    · intro x hx
      simp only [List.singleton_append, List.mem_cons, List.mem_append, List.not_mem_nil,
        or_false] at hx
      rcases hx with rfl | hx | rfl
      · exact Or.inl hc
      · exact (inClass_alnumDash x).1 (hmid x hx)
      · exact Or.inl he

theorem exists_labels (ws : List (List Char))
    (h : ∀ v ∈ ws, (Regexp.concat (.charClass dotClass) labelRegex).Lang v) :
    ∃ ls : List (List Char), ws.flatten = ls.flatMap (fun x => '.' :: x) ∧ ls.length = ws.length ∧
      ∀ l ∈ ls, IsLabel alnumChars l := by
  induction ws with
  | nil => exact ⟨[], rfl, rfl, by simp⟩
  | cons v ws ih =>
    obtain ⟨ls, hfl, hlen, hall⟩ := ih (fun x hx => h x (List.mem_cons_of_mem _ hx))
    obtain ⟨u, l, rfl, ⟨d, rfl, hd⟩, hl⟩ := h v (List.mem_cons_self _ _)
    rw [inClass_dot] at hd
    subst hd
    refine ⟨l :: ls, by simp [hfl], by simp [hlen], ?_⟩
    intro x hx
    rcases List.mem_cons.1 hx with rfl | hx
    · exact Lang_label _ hl
    · exact hall x hx

theorem at_not_mem_alnum : '@' ∉ alnumChars := by decide

theorem at_not_mem_local : '@' ∉ localChars := by decide

theorem IsLabel.not_at {l : List Char} (h : IsLabel alnumChars l) : '@' ∉ l := by
  intro hm
  rcases h.2.2.2 '@' hm with h1 | h1
  · exact at_not_mem_alnum h1
  · exact absurd h1 (by decide)

theorem at_not_mem_dotted : ∀ (labels : List (List Char)),
    (∀ l ∈ labels, IsLabel alnumChars l) → '@' ∉ dotted labels := by
  intro labels h
  cases labels with
  | nil => simp [dotted]
  | cons l ls =>
    simp only [dotted, List.mem_append, List.mem_flatMap, List.mem_cons, not_or, not_exists, not_and]
    refine ⟨(h l (List.mem_cons_self _ _)).not_at, ?_⟩
    intro x hx
    exact ⟨by decide, (h x (List.mem_cons_of_mem _ hx)).not_at⟩

/-- Every word of the pattern has the shape of an address. -/
theorem Lang_email (w : List Char) (h : emailRegex.Lang w) :
    IsEmail alnumChars localSpecials w := by
  obtain ⟨L, v, rfl, ⟨u, ws, rfl, ⟨c, rfl, hc⟩, hws⟩, ⟨a, D, rfl, ⟨d, rfl, hd⟩,
    ⟨l0, tl, rfl, hl0, ⟨x, xs, rfl, hx, hxs⟩⟩⟩⟩ := h
  rw [inClass_at] at hd
  subst hd
  obtain ⟨ls, hfl, _, hall⟩ := exists_labels (x :: xs) (by
    intro v hv
    rcases List.mem_cons.1 hv with rfl | hv
    · exact hx
    · exact hxs v hv)
  have hne : ls ≠ [] := by
    intro h0
    subst h0
    simp at *
  obtain ⟨l1, ls1, rfl⟩ := List.exists_cons_of_ne_nil hne
  refine ⟨[c] ++ ws.flatten, dotted (l0 :: l1 :: ls1), ?_, by simp, ?_,
    l0 :: l1 :: ls1, rfl, by simp, ?_⟩
  · have : x ++ xs.flatten = (l1 :: ls1).flatMap (fun x => '.' :: x) := by
      rw [← hfl]; simp
    simp only [dotted, this, List.singleton_append, List.cons_append, List.append_assoc,
      List.nil_append]
  · intro y hy
    have hy1 : inClass localClass y = true := by
      simp only [List.singleton_append, List.mem_cons] at hy
      rcases hy with rfl | hy
      · exact hc
      · obtain ⟨z, hz, hyz⟩ := List.mem_flatten.1 hy
        obtain ⟨e, rfl, he⟩ := hws z hz
        simp only [List.mem_singleton] at hyz
        exact hyz ▸ he
    have := (inClass_local y).1 hy1
    simpa [localChars] using this
  · intro l hl
    rcases List.mem_cons.1 hl with rfl | hl
    · exact Lang_label _ hl0
    · exact hall l hl

theorem IsEmail.count_at {w : List Char} (h : IsEmail alnumChars localSpecials w) :
    w.count '@' = 1 := by
  obtain ⟨L, D, rfl, _, hL, labels, rfl, _, hall⟩ := h
  have h1 : '@' ∉ L := by
    intro hm
    have := hL '@' hm
    exact at_not_mem_local (by simpa [localChars] using this)
  have h2 := at_not_mem_dotted labels hall
  rw [List.count_append, List.count_cons_self, List.count_eq_zero.2 h1, List.count_eq_zero.2 h2]

theorem IsEmail.ne_nil {a s : List Char} {w : List Char} (h : IsEmail a s w) : w ≠ [] := by
  obtain ⟨L, D, rfl, _⟩ := h
  simp

theorem emailRegex_noEmpty : emailRegex.NoEmpty := fun h => (Lang_email [] h).ne_nil rfl

theorem stitch_maskOne (src : List Char) : ∀ (idx : List (Nat × Nat)) (e : Nat) (m : Masker),
    (stitch src maskOne e idx m).1
        = weave (gaps src e idx) ((idx.map (fun a => slice src a.1 a.2)).map token) ∧
    (stitch src maskOne e idx m).2.replacements
        = m.replacements ++ (idx.map (fun a => slice src a.1 a.2)).map entry := by
  intro idx
  induction idx with
  | nil => intro e m; simp [stitch, gaps, weave]
  | cons a rest ih =>
    intro e m
    obtain ⟨h1, h2⟩ := ih a.2 (maskOne m (slice src a.1 a.2)).2
    simp only [stitch, gaps, List.map_cons, weave, h1, h2]
    simp [maskOne, token, entry]

theorem Mask_eq_stitch (m : Masker) (text : String) :
    m.Mask text =
      (⟨(stitch text.data maskOne 0 (FindAllStringIndex emailRegex text.data) m).1⟩,
        (stitch text.data maskOne 0 (FindAllStringIndex emailRegex text.data) m).2) := by
  rw [Masker.Mask, ReplaceAllStringFunc_eq_stitch emailRegex emailRegex_noEmpty]

theorem findAll_chained (src : List Char) : Chained src 0 (FindAllStringIndex emailRegex src) :=
  allMatchesLoop_chained emailRegex emailRegex_noEmpty src _ 0 _ (Nat.zero_le _)

theorem Mask_output (m : Masker) (text : String) :
    (m.Mask text).1.data = weave (gaps text.data 0 (FindAllStringIndex emailRegex text.data))
      ((FindAllString emailRegex text.data).map token) := by
  rw [Mask_eq_stitch]
  exact (stitch_maskOne text.data _ 0 m).1

theorem Mask_replacements (m : Masker) (text : String) :
    (m.Mask text).2.replacements
      = m.replacements ++ (FindAllString emailRegex text.data).map entry := by
  rw [Mask_eq_stitch]
  exact (stitch_maskOne text.data _ 0 m).2

theorem findAll_mem (src w : List Char) (h : w ∈ FindAllString emailRegex src) :
    emailRegex.Lang w ∧ ∃ pre post, src = pre ++ w ++ post := by
  simp only [FindAllString, List.mem_map] at h
  obtain ⟨a, ha, rfl⟩ := h
  obtain ⟨w, t, tl, e1, _, e3, e4⟩ :=
    allMatchesLoop_mem emailRegex emailRegex_noEmpty src _ 0 _ a (Nat.zero_le _) ha
  rw [e4]
  refine ⟨e3, src.take a.1, t, ?_⟩
  rw [List.append_assoc, ← e1, List.take_append_drop]

/-- C1: for every engine and every text, the matches of the pattern sit in
the text left to right without overlap, the text is
`g0 ++ m1 ++ g1 ++ ... ++ mk ++ gk` for the matches `m1 .. mk` and the parts
`g0 .. gk` between them, and `Mask` returns
`g0 ++ hashEmail m1 ++ g1 ++ ... ++ hashEmail mk ++ gk`. -/
theorem Mask_replaces_matches (m : Masker) (text : String) :
    Chained text.data 0 (FindAllStringIndex emailRegex text.data) ∧
    (gaps text.data 0 (FindAllStringIndex emailRegex text.data)).length
      = (FindAllString emailRegex text.data).length + 1 ∧
    text.data = weave (gaps text.data 0 (FindAllStringIndex emailRegex text.data))
      (FindAllString emailRegex text.data) ∧
    (m.Mask text).1.data = weave (gaps text.data 0 (FindAllStringIndex emailRegex text.data))
      ((FindAllString emailRegex text.data).map (fun x => (hashEmail ⟨x⟩).data)) := by
  refine ⟨findAll_chained _, ?_, ?_, Mask_output m text⟩
  · rw [gaps_length, FindAllString, List.length_map]
  · rw [FindAllString, weave_gaps _ _ 0 (findAll_chained _)]
    rfl

/-- C2: for every engine and every text, the ledger after `Mask` is the
ledger before followed by one entry `{Original: match, Masked: hashEmail match}`
per match, in the order of the matches, and its length grows by the number
of matches. -/
theorem Mask_ledger_growth (m : Masker) (text : String) :
    (m.Mask text).2.replacements
      = m.replacements ++ (FindAllString emailRegex text.data).map
          (fun x => { Original := ⟨x⟩, Masked := hashEmail ⟨x⟩ }) ∧
    (m.Mask text).2.replacements.length
      = m.replacements.length + (FindAllString emailRegex text.data).length := by
  have h := Mask_replacements m text
  refine ⟨h, ?_⟩
  rw [h, List.length_append, List.length_map]

/-- C3: `hashEmail s` is the first 14 characters of the lower-case
hexadecimal text of the SHA-256 digest of the bytes of `s`;
`hashEmail "test@example.com"` is `973dfe463ec857`, and a new engine masks
`Contact us at test@example.com` to `Contact us at 973dfe463ec857`. -/
theorem hashEmail_sha256_hex :
    (∀ s : String,
      (hashEmail s).data = (fmt.lowerHex (sha256.Sum256 (utf8.encode s.data))).take 14) ∧
    hashEmail "test@example.com" = "973dfe463ec857" ∧
    (New.Mask "Contact us at test@example.com").1 = "Contact us at 973dfe463ec857" := by
  refine ⟨?_, by decide, by decide⟩
  intro s
  rw [hashEmail_data, fmt.Sprintf_x_eq_lowerHex _ (sha256.Sum256_lt _)]

/-- C4: for every string, the empty one included, `hashEmail` returns
exactly 14 characters, each one of `0-9` or `a-f`. -/
theorem hashEmail_shape (s : String) :
    (hashEmail s).length = 14 ∧
    (hashEmail s).data.all (fun c => decide (c ∈ "0123456789abcdef".data)) = true := by
  refine ⟨hashEmail_length s, ?_⟩
  rw [List.all_eq_true]
  intro c hc
  exact decide_eq_true (hashEmail_mem s c hc)

/-- C5: the code breaks the property.  Masking `test@example.com@d.e 7@d.e`
on a new engine records the original `7@d.e`, and the output
`973dfe463ec857@d.e ddc21f1f455027` contains `7@d.e`: the last digit of the
first token followed by the unmatched `@d.e`. -/
theorem Mask_output_contains_original :
    (New.Mask "test@example.com@d.e 7@d.e").1 = "973dfe463ec857@d.e ddc21f1f455027" ∧
    (New.Mask "test@example.com@d.e 7@d.e").2.replacements =
      [⟨"test@example.com", "973dfe463ec857"⟩, ⟨"7@d.e", "ddc21f1f455027"⟩] ∧
    ∃ r ∈ (New.Mask "test@example.com@d.e 7@d.e").2.replacements,
      r.Original.data <:+: (New.Mask "test@example.com@d.e 7@d.e").1.data :=
  ⟨by decide, by decide, ⟨"7@d.e", "ddc21f1f455027"⟩, by decide,
    "973dfe463ec85".data, " ddc21f1f455027".data, by decide⟩

/-- C6: the output of `Mask` on a new engine contains the token of every
entry recorded by the call. -/
theorem Mask_output_contains_tokens (text : String) :
    ∀ r ∈ (New.Mask text).2.replacements, r.Masked.data <:+: (New.Mask text).1.data := by
  intro r hr
  rw [Mask_replacements] at hr
  simp only [New, List.nil_append, List.mem_map] at hr
  obtain ⟨w, hw, rfl⟩ := hr
  rw [Mask_output]
  apply mem_weave_sub
  · exact List.mem_map.2 ⟨w, hw, rfl⟩
  · rw [gaps_length, FindAllString, List.length_map, List.length_map]
    exact Nat.lt_succ_self _

theorem Mask_output_contains_tokens_witness :
    (⟨"user2@test.org", "4a63b48c70d1ef"⟩ : Replacement)
      ∈ (New.Mask "From user1@test.com to user2@test.org").2.replacements ∧
    "4a63b48c70d1ef".data <:+: (New.Mask "From user1@test.com to user2@test.org").1.data :=
  ⟨by decide,
    Mask_output_contains_tokens "From user1@test.com to user2@test.org"
      ⟨"user2@test.org", "4a63b48c70d1ef"⟩ (by decide)⟩

/-- C10: when the pattern has no match in the text, `Mask` returns the text
itself and leaves the engine as it was; so it is for
`No email addresses here` and for the empty text. -/
theorem Mask_passthrough (m : Masker) (text : String)
    (h : FindAllString emailRegex text.data = []) : m.Mask text = (text, m) := by
  have hidx : FindAllStringIndex emailRegex text.data = [] := by
    simpa [FindAllString] using h
  rw [Mask_eq_stitch, hidx]
  simp [stitch]

theorem Mask_passthrough_witness :
    FindAllString emailRegex "No email addresses here".data = [] ∧
    FindAllString emailRegex "".data = [] ∧
    New.Mask "No email addresses here" = ("No email addresses here", New) ∧
    New.Mask "" = ("", New) :=
  ⟨by decide, by decide, Mask_passthrough New "No email addresses here" (by decide),
    Mask_passthrough New "" (by decide)⟩

theorem dot_mem_domain {a D : List Char} (h : IsDomain a D) : '.' ∈ D := by
  obtain ⟨labels, rfl, hlen, _⟩ := h
  match labels, hlen with
  | l0 :: l1 :: ls, _ => simp [dotted]

/-- C7, as stated, fails: in `\u017f@a.b` the only `@` follows U+017F, which
is none of the letters a-z in either case, digits or listed punctuation, yet
the matcher returns the whole text (the case-insensitive class accepts
U+017F). -/
theorem match_after_long_s :
    (¬ ∃ (pre : List Char) (c : Char) (D post : List Char),
        "\u017f@a.b".data = pre ++ c :: '@' :: (D ++ post) ∧ c ∈ asciiLocalChars ∧
          IsDomain letterDigits D) ∧
    FindAllString emailRegex "\u017f@a.b".data = ["\u017f@a.b".data] := by
  refine ⟨?_, by decide⟩
  rintro ⟨pre, c, D, post, heq, hc, _⟩
  have h1 : "\u017f@a.b".data[pre.length]? = some c := by
    rw [heq, List.getElem?_append_right (Nat.le_refl _)]
    simp
  have h2 : "\u017f@a.b".data[pre.length + 1]? = some '@' := by
    rw [heq, List.getElem?_append_right (by omega)]
    simp
  have hlen : pre.length + 1 < 5 := by
    have := congrArg List.length heq
    simp at this
    omega
  have key : ∀ i, i < 4 → "\u017f@a.b".data[i + 1]? = some '@' →
      ∀ x, "\u017f@a.b".data[i]? = some x → x ∉ asciiLocalChars := by decide
  exact key pre.length (by omega) h2 c h1 hc

/-- C7, amended: the matcher finds no match in a text in which no `@` is
both preceded by a local-part character and followed by a domain of two or
more labels, the letters being a-z in either case together with U+017F and
U+212A; so it is for `plainaddress`, `@missinglocal.com`, `missing@`,
`missing.domain@` and `user@localhost`. -/
theorem no_match_without_address :
    (∀ text : List Char,
      (¬ ∃ (pre : List Char) (c : Char) (D post : List Char),
          text = pre ++ c :: '@' :: (D ++ post) ∧ c ∈ localChars ∧ IsDomain alnumChars D) →
      FindAllString emailRegex text = []) ∧
    FindAllString emailRegex "plainaddress".data = [] ∧
    FindAllString emailRegex "@missinglocal.com".data = [] ∧
    FindAllString emailRegex "missing@".data = [] ∧
    FindAllString emailRegex "missing.domain@".data = [] ∧
    FindAllString emailRegex "user@localhost".data = [] := by
  refine ⟨?_, by decide, by decide, by decide, by decide, by decide⟩
  intro text h
  by_contra hne
  obtain ⟨w, hw⟩ := List.exists_mem_of_ne_nil _ hne
  obtain ⟨hL, pre, post, rfl⟩ := findAll_mem text w hw
  obtain ⟨L, D, rfl, hLne, hLc, hD⟩ := Lang_email w hL
  rcases List.eq_nil_or_concat L with rfl | ⟨L0, c, rfl⟩
  · exact hLne rfl
  · apply h
    refine ⟨pre ++ L0, c, D, post, by simp, ?_, hD⟩
    have := hLc c (by simp)
    simpa [localChars] using this

theorem no_match_without_address_witness :
    (¬ ∃ (pre : List Char) (c : Char) (D post : List Char),
        "user@localhost".data = pre ++ c :: '@' :: (D ++ post) ∧ c ∈ localChars ∧
          IsDomain alnumChars D) ∧
    FindAllString emailRegex "user@localhost".data = [] := by
  have h : ¬ ∃ (pre : List Char) (c : Char) (D post : List Char),
      "user@localhost".data = pre ++ c :: '@' :: (D ++ post) ∧ c ∈ localChars ∧
        IsDomain alnumChars D := by
    rintro ⟨pre, c, D, post, heq, _, hD⟩
    have hdot : '.' ∈ "user@localhost".data := by
      rw [heq]
      simp [dot_mem_domain hD]
    exact absurd hdot (by decide)
  exact ⟨h, no_match_without_address.1 _ h⟩

/-- C9, as stated, fails: the matcher returns the whole of `\u017f@a.b` (with
U+017F, which the case-insensitive class accepts), whose local part is not
made of the letters a-z in either case, digits and the listed punctuation. -/
theorem match_with_long_s :
    "\u017f@a.b".data ∈ FindAllString emailRegex "\u017f@a.b".data ∧
    ¬ IsEmail letterDigits localSpecials "\u017f@a.b".data := by
  refine ⟨by decide, ?_⟩
  rintro ⟨L, D, heq, hne, hL, _⟩
  cases L with
  | nil => exact hne rfl
  | cons c L =>
    have hc : c = '\u017f' := by
      have := congrArg List.head? heq
      simpa using this.symm
    have := hL c (List.mem_cons_self _ _)
    rw [hc] at this
    exact absurd this (by decide)

/-- C9, amended: every match the matcher returns has the shape
`L ++ "@" ++ D` with exactly one `@`, where `L` is not empty and made of
letters, digits and the listed punctuation, `D` is two or more labels joined
by single dots, each label starts and ends with a letter or digit and holds
only letters, digits and hyphens, and the letters are a-z in either case
together with U+017F and U+212A. -/
theorem match_shape (text w : List Char) (h : w ∈ FindAllString emailRegex text) :
    IsEmail alnumChars localSpecials w ∧ w.count '@' = 1 := by
  have hE := Lang_email w (findAll_mem text w h).1
  exact ⟨hE, hE.count_at⟩

theorem match_shape_witness :
    "test@example.com".data ∈ FindAllString emailRegex "Contact us at test@example.com".data ∧
    IsEmail alnumChars localSpecials "test@example.com".data ∧
    "test@example.com".data.count '@' = 1 :=
  ⟨by decide, match_shape "Contact us at test@example.com".data "test@example.com".data (by decide)⟩

end masker

namespace regexp

theorem runs_class_cons (cl : RuneClass) (c : Char) (s : List Char) :
    (Regexp.charClass cl).runs (c :: s) = if inClass cl c then [s] else [] := rfl

theorem runs_concat (a b : Regexp) (s : List Char) :
    (Regexp.concat a b).runs s = (a.runs s).flatMap b.runs := rfl

theorem runs_plus (a : Regexp) (s : List Char) :
    (Regexp.plus a).runs s = (a.runs s).flatMap (fun t => loopRuns a.runs t.length t) := rfl

theorem runs_concat_class_cons (cl : RuneClass) (r : Regexp) (c : Char) (s : List Char)
    (h : inClass cl c = true) : (Regexp.concat (.charClass cl) r).runs (c :: s) = r.runs s := by
  rw [runs_concat, runs_class_cons, if_pos h, List.flatMap_cons, List.flatMap_nil,
    List.append_nil]

theorem runs_class_noHead (cl : RuneClass) (r : List Char) (h : NoHead cl r) :
    (Regexp.charClass cl).runs r = [] := by
  cases r with
  | nil => rfl
  | cons c s =>
    have := h c (by simp)
    simp [runs_class_cons, this]

theorem loopRuns_noHead (cl : RuneClass) (n : Nat) (r : List Char) (h : NoHead cl r) :
    loopRuns (Regexp.charClass cl).runs n r = [r] := by
  cases n with
  | zero => rfl
  | succ n => simp [loopRuns, runs_class_noHead cl r h]

theorem loopRuns_class_cons (cl : RuneClass) (n : Nat) (c : Char) (s : List Char)
    (hc : inClass cl c = true) :
    loopRuns (Regexp.charClass cl).runs (n + 1) (c :: s)
      = loopRuns (Regexp.charClass cl).runs n s ++ [c :: s] := by
  simp [loopRuns, runs_class_cons, hc]

/-- A greedy loop over a class first consumes the whole run of class
characters. -/
theorem loopRuns_class_head (cl : RuneClass) : ∀ (w r : List Char) (n : Nat),
    (∀ c ∈ w, inClass cl c = true) → NoHead cl r → w.length ≤ n →
    ∃ tl, loopRuns (Regexp.charClass cl).runs n (w ++ r) = r :: tl := by
  intro w
  induction w with
  | nil =>
    intro r n _ hr _
    exact ⟨[], loopRuns_noHead cl n r hr⟩
  | cons c w ih =>
    intro r n hw hr hn
    cases n with
    | zero => simp at hn
    | succ n =>
      obtain ⟨tl, htl⟩ := ih r n (fun x hx => hw x (List.mem_cons_of_mem _ hx)) hr
        (by simpa using hn)
      refine ⟨tl ++ [c :: (w ++ r)], ?_⟩
      rw [List.cons_append, loopRuns_class_cons cl n c _ (hw c (List.mem_cons_self _ _)), htl]
      rfl

/-- The second choice of a greedy loop over a class gives back the last
character of the run. -/
theorem loopRuns_class_head2 (cl : RuneClass) : ∀ (w : List Char) (e : Char) (r : List Char)
    (n : Nat), (∀ c ∈ w, inClass cl c = true) → inClass cl e = true → NoHead cl r →
    w.length + 1 ≤ n →
    ∃ tl, loopRuns (Regexp.charClass cl).runs n (w ++ e :: r) = r :: (e :: r) :: tl := by
  intro w
  induction w with
  | nil =>
    intro e r n _ he hr hn
    cases n with
    | zero => simp at hn
    | succ n =>
      refine ⟨[], ?_⟩
      rw [List.nil_append, loopRuns_class_cons cl n e r he, loopRuns_noHead cl n r hr]
      rfl
  | cons c w ih =>
    intro e r n hw he hr hn
    cases n with
    | zero => simp at hn
    | succ n =>
      obtain ⟨tl, htl⟩ := ih e r n (fun x hx => hw x (List.mem_cons_of_mem _ hx)) he hr
        (by simpa using hn)
      refine ⟨tl ++ [c :: (w ++ e :: r)], ?_⟩
      rw [List.cons_append, loopRuns_class_cons cl n c _ (hw c (List.mem_cons_self _ _)), htl]
      rfl

theorem runs_plus_class_head (cl : RuneClass) (w r : List Char) (hne : w ≠ [])
    (hw : ∀ c ∈ w, inClass cl c = true) (hr : NoHead cl r) :
    ∃ tl, (Regexp.plus (.charClass cl)).runs (w ++ r) = r :: tl := by
  cases w with
  | nil => exact absurd rfl hne
  | cons c w =>
    obtain ⟨tl, htl⟩ := loopRuns_class_head cl w r (w ++ r).length
      (fun x hx => hw x (List.mem_cons_of_mem _ hx)) hr (by simp)
    refine ⟨tl, ?_⟩
    simp only [Regexp.runs, List.cons_append, hw c (List.mem_cons_self _ _), if_true,
      List.flatMap_cons, List.flatMap_nil, List.append_nil]
    exact htl

theorem split_at_first {a : Char} : ∀ (x y u v : List Char), a ∉ x → a ∉ y →
    x ++ a :: u = y ++ a :: v → x = y := by
  intro x
  induction x with
  | nil =>
    intro y u v _ hy h
    cases y with
    | nil => rfl
    | cons c y =>
      simp only [List.nil_append, List.cons_append, List.cons.injEq] at h
      exact absurd (by simp [h.1]) hy
  | cons b x ih =>
    intro y u v hx hy h
    cases y with
    | nil =>
      simp only [List.nil_append, List.cons_append, List.cons.injEq] at h
      exact absurd (by simp [h.1]) hx
    | cons c y =>
      simp only [List.cons_append, List.cons.injEq] at h
      rw [h.1, ih y u v (fun hm => hx (List.mem_cons_of_mem _ hm))
        (fun hm => hy (List.mem_cons_of_mem _ hm)) h.2]

end regexp

namespace masker

open regexp

theorem IsLabel.cases {l : List Char} (h : IsLabel alnumChars l) :
    (∃ c, l = [c] ∧ c ∈ alnumChars) ∨
    (∃ c mid e, l = c :: (mid ++ [e]) ∧ c ∈ alnumChars ∧ e ∈ alnumChars ∧
      ∀ x ∈ mid, inClass alnumDashClass x = true) := by
  obtain ⟨hne, hh, hl, hall⟩ := h
  rcases List.eq_nil_or_concat l with rfl | ⟨L, b, hLb⟩
  · exact absurd rfl hne
  · rw [List.concat_eq_append] at hLb
    subst hLb
    have hb : b ∈ alnumChars := hl b (by simp)
    cases L with
    | nil => exact Or.inl ⟨b, rfl, hb⟩
    | cons c mid =>
      refine Or.inr ⟨c, mid, b, rfl, hh c (by simp), hb, ?_⟩
      intro x hx
      exact (inClass_alnumDash x).2 (hall x (by simp [hx]))

theorem not_alnum_of_noHead {r : List Char} (h : NoHead alnumDashClass r) :
    NoHead alnumClass r := by
  intro c hc
  have h1 := h c hc
  by_contra h2
  have h3 : inClass alnumClass c = true := by simpa using h2
  have h4 := (inClass_alnumDash c).2 (Or.inl ((inClass_alnum c).1 h3))
  rw [h1] at h4
  exact absurd h4 (by decide)

/-- The preferred match of the label pattern on a label followed by
something that cannot extend it is the whole label. -/
theorem runs_label_head (l r : List Char) (hl : IsLabel alnumChars l)
    (hr : NoHead alnumDashClass r) : ∃ tl, labelRegex.runs (l ++ r) = r :: tl := by
  rcases hl.cases with ⟨c, rfl, hc⟩ | ⟨c, mid, e, rfl, hc, he, hmid⟩
  · refine ⟨[], ?_⟩
    have hc1 := (inClass_alnum c).2 hc
    simp only [labelRegex, Regexp.runs, List.singleton_append, hc1, if_true, List.flatMap_cons,
      List.flatMap_nil, List.append_nil]
    have h1 := loopRuns_noHead alnumDashClass r.length r hr
    have h2 := runs_class_noHead alnumClass r (not_alnum_of_noHead hr)
    simp only [Regexp.runs] at h1 h2
    rw [h1]
    simp only [List.flatMap_cons, List.flatMap_nil, List.append_nil]
    rw [h2]
    rfl
  · have hc1 := (inClass_alnum c).2 hc
    have he1 := (inClass_alnum e).2 he
    have he2 := (inClass_alnumDash e).2 (Or.inl he)
    obtain ⟨tl, htl⟩ := loopRuns_class_head2 alnumDashClass mid e r (mid ++ e :: r).length
      hmid he2 hr (by simp)
    have h2 := runs_class_noHead alnumClass r (not_alnum_of_noHead hr)
    have h3 := runs_class_cons alnumClass e r
    rw [he1] at h3
    simp only [Regexp.runs] at htl h2 h3
    have hshape : c :: (mid ++ [e]) ++ r = c :: (mid ++ e :: r) := by simp
    rw [hshape]
    simp only [labelRegex, Regexp.runs, hc1, if_true, List.flatMap_cons,
      List.flatMap_nil, List.append_nil]
    rw [htl]
    simp only [List.flatMap_cons]
    rw [h2, h3]
    exact ⟨_, rfl⟩

theorem noHead_dots (ls : List (List Char)) :
    NoHead alnumDashClass (ls.flatMap (fun x => '.' :: x)) := by
  intro c hc
  cases ls with
  | nil => simp at hc
  | cons l ls =>
    simp only [List.flatMap_cons, List.cons_append, List.head?_cons, Option.mem_def,
      Option.some.injEq] at hc
    subst hc
    decide

theorem runs_dotLabel_cons (s : List Char) :
    dotLabelRegex.runs ('.' :: s) = labelRegex.runs s :=
  runs_concat_class_cons dotClass labelRegex '.' s (by decide)

theorem runs_dotLabel_nil : dotLabelRegex.runs [] = [] := rfl

/-- The greedy loop over `\.label` consumes a whole sequence of dotted
labels first. -/
theorem loopRuns_dots : ∀ (ls : List (List Char)) (n : Nat),
    (∀ l ∈ ls, IsLabel alnumChars l) → (ls.flatMap (fun x => '.' :: x)).length ≤ n →
    ∃ tl, loopRuns dotLabelRegex.runs n (ls.flatMap (fun x => '.' :: x)) = [] :: tl := by
  intro ls
  induction ls with
  | nil =>
    intro n _ _
    cases n with
    | zero => exact ⟨[], rfl⟩
    | succ n => exact ⟨[], by simp [loopRuns, runs_dotLabel_nil]⟩
  | cons l ls ih =>
    intro n hall hn
    cases n with
    | zero => simp at hn
    | succ n =>
      obtain ⟨tl1, h1⟩ := runs_label_head l (ls.flatMap (fun x => '.' :: x))
        (hall l (List.mem_cons_self _ _)) (noHead_dots ls)
      obtain ⟨tl2, h2⟩ := ih n (fun x hx => hall x (List.mem_cons_of_mem _ hx)) (by
        simp only [List.flatMap_cons, List.cons_append, List.length_cons, List.length_append] at hn
        omega)
      simp only [List.flatMap_cons, List.cons_append, loopRuns, runs_dotLabel_cons, h1]
      have hlt : (ls.flatMap (fun x => '.' :: x)).length
          < ('.' :: (l ++ ls.flatMap (fun x => '.' :: x))).length := by
        simp only [List.length_cons, List.length_append]
        omega
      simp only [List.flatMap_cons, if_pos hlt, h2]
      exact ⟨_, rfl⟩

/-- The preferred match of the whole pattern on an address is the whole
address. -/
theorem runs_email_head (L D : List Char) (hL : L ≠ []) (hLc : ∀ c ∈ L, c ∈ localChars)
    (hD : IsDomain alnumChars D) : ∃ tl, emailRegex.runs (L ++ '@' :: D) = [] :: tl := by
  obtain ⟨labels, rfl, hlen, hall⟩ := hD
  match labels, hlen, hall with
  | l0 :: l1 :: ls, _, hall =>
    have hat : NoHead localClass ('@' :: dotted (l0 :: l1 :: ls)) := by
      intro c hc
      simp only [List.head?_cons, Option.mem_def, Option.some.injEq] at hc
      subst hc
      decide
    obtain ⟨tl0, h0⟩ := runs_plus_class_head localClass L _ hL
      (fun c hc => (inClass_local c).2 (hLc c hc)) hat
    obtain ⟨tl1, h1⟩ := runs_label_head l0 ((l1 :: ls).flatMap (fun x => '.' :: x))
      (hall l0 (List.mem_cons_self _ _)) (noHead_dots (l1 :: ls))
    obtain ⟨tl2, h2⟩ := runs_label_head l1 (ls.flatMap (fun x => '.' :: x))
      (hall l1 (by simp)) (noHead_dots ls)
    obtain ⟨tl3, h3⟩ := loopRuns_dots ls (ls.flatMap (fun x => '.' :: x)).length
      (fun x hx => hall x (by simp [hx])) (Nat.le_refl _)
    have hd1 : (Regexp.plus dotLabelRegex).runs ((l1 :: ls).flatMap (fun x => '.' :: x))
        = [] :: (tl3 ++ tl2.flatMap (fun t => loopRuns dotLabelRegex.runs t.length t)) := by
      have hin : (l1 :: ls).flatMap (fun x => '.' :: x)
          = '.' :: (l1 ++ ls.flatMap (fun x => '.' :: x)) := rfl
      rw [hin, runs_plus, runs_dotLabel_cons, h2, List.flatMap_cons, h3]
      rfl
    have hat1 : inClass atClass '@' = true := by decide
    have hdom : (Regexp.concat labelRegex (.plus dotLabelRegex)).runs (dotted (l0 :: l1 :: ls))
        = [] :: ((tl3 ++ tl2.flatMap (fun t => loopRuns dotLabelRegex.runs t.length t))
            ++ tl1.flatMap (Regexp.plus dotLabelRegex).runs) := by
      rw [dotted, runs_concat, h1, List.flatMap_cons, hd1]
      rfl
    rw [emailRegex, runs_concat, h0, List.flatMap_cons,
      runs_concat_class_cons atClass _ '@' _ hat1]
    have hdom1 : (Regexp.concat labelRegex
        (.plus (.concat (.charClass dotClass) labelRegex))).runs (dotted (l0 :: l1 :: ls))
        = [] :: ((tl3 ++ tl2.flatMap (fun t => loopRuns dotLabelRegex.runs t.length t))
            ++ tl1.flatMap (Regexp.plus dotLabelRegex).runs) := hdom
    rw [hdom1]
    exact ⟨_, rfl⟩

theorem runs_email_nil : emailRegex.runs [] = [] := rfl

theorem no_match_before_address (P L D : List Char) (hLc : ∀ c ∈ L, c ∈ localChars)
    (hP : '@' ∉ P) (hPl : ∀ c ∈ P.getLast?, c ∉ localChars) (k : Nat) (hk : k < P.length) :
    emailRegex.runs (P.drop k ++ (L ++ '@' :: D)) = [] := by
  rw [List.eq_nil_iff_forall_not_mem]
  intro t ht
  obtain ⟨w, hw, hLang⟩ := emailRegex.runs_sound _ t ht
  obtain ⟨L1, D1, rfl, _, hL1, _⟩ := Lang_email w hLang
  have hne : P.drop k ≠ [] := by
    intro h0
    have := congrArg List.length h0
    simp only [List.length_drop, List.length_nil] at this
    omega
  rcases List.eq_nil_or_concat (P.drop k) with h0 | ⟨Q, c, hQ⟩
  · exact hne h0
  · rw [List.concat_eq_append] at hQ
    have hPeq : P = P.take k ++ Q ++ [c] := by
      rw [List.append_assoc, ← hQ, List.take_append_drop]
    have hlast : P.getLast? = some c := by
      rw [hPeq]
      simp
    have hcP : c ∉ localChars := hPl c hlast
    have hat1 : '@' ∉ P.drop k ++ L := by
      intro hm
      rcases List.mem_append.1 hm with h1 | h1
      · exact hP (List.mem_of_mem_drop h1)
      · exact at_not_mem_local (hLc _ h1)
    have hat2 : '@' ∉ L1 := by
      intro hm
      have := hL1 _ hm
      exact at_not_mem_local (by simpa [localChars] using this)
    have heq : (P.drop k ++ L) ++ '@' :: D = L1 ++ '@' :: (D1 ++ t) := by
      rw [List.append_assoc, hw]
      simp
    have hsplit := split_at_first _ _ _ _ hat1 hat2 heq
    have hc : c ∈ L1 := by
      rw [← hsplit, hQ]
      simp
    have := hL1 c hc
    exact hcP (by simpa [localChars] using this)

theorem findAll_single (P L D : List Char) (hL : L ≠ []) (hLc : ∀ c ∈ L, c ∈ localChars)
    (hD : IsDomain alnumChars D) (hP : '@' ∉ P) (hPl : ∀ c ∈ P.getLast?, c ∉ localChars) :
    FindAllStringIndex emailRegex (P ++ (L ++ '@' :: D))
      = [(P.length, (P ++ (L ++ '@' :: D)).length)] := by
  obtain ⟨tl, htl⟩ := runs_email_head L D hL hLc hD
  have hexec0 : doExecute emailRegex (P ++ (L ++ '@' :: D)) 0
      = some (P.length, (P ++ (L ++ '@' :: D)).length) := by
    rw [doExecute, List.drop_zero,
      searchFrom_skip emailRegex P _ 0 (no_match_before_address P L D hLc hP hPl),
      searchFrom_hit emailRegex _ [] _ tl htl]
    simp
  have hexec1 : doExecute emailRegex (P ++ (L ++ '@' :: D)) (P ++ (L ++ '@' :: D)).length
      = none := by
    rw [doExecute, List.drop_length]
    rfl
  have hlen : (P ++ (L ++ '@' :: D)).length = ((P ++ (L ++ '@' :: D)).length - 1) + 1 := by
    simp only [List.length_append, List.length_cons]
    omega
  rw [FindAllStringIndex, allMatchesLoop_step emailRegex emailRegex_noEmpty _ _ 0 _ (Nat.zero_le _),
    hexec0]
  simp only []
  rw [hlen, allMatchesLoop_step emailRegex emailRegex_noEmpty _ _ _ _ (by rw [← hlen]),
    ← hlen, hexec1]

/-- C8, as stated, fails: with `P` the one character U+017F (no `@`, ending
in a character that is none of the letters a-z in either case, digits or
listed punctuation), `L = a` and `D = b.c`, `Mask` on a new engine records
the original `\u017fa@b.c`, not `a@b.c`, and masks the character of `P` with
it. -/
theorem Mask_joins_long_s :
    ('@' ∉ "\u017f".data ∧ (∀ c ∈ "\u017f".data.getLast?, c ∉ asciiLocalChars)) ∧
    ("a".data ≠ [] ∧ ∀ c ∈ "a".data, c ∈ asciiLocalChars) ∧
    IsDomain letterDigits "b.c".data ∧
    New.Mask "\u017fa@b.c"
      = ("c60c9da81eb001", { replacements := [⟨"\u017fa@b.c", "c60c9da81eb001"⟩] }) := by
  refine ⟨by decide, by decide, ⟨["b".data, "c".data], rfl, by decide, ?_⟩, by decide⟩
  intro l hl
  simp only [List.mem_cons, List.mem_singleton, List.not_mem_nil, or_false] at hl
  rcases hl with rfl | rfl <;> (unfold IsLabel; decide)

/-- C8, amended: for a non-empty local part `L` of local-part characters, a
domain `D` of two or more labels and a text `P` in front without `@` that is
empty or ends in a character that is not a local-part character, the letters
being a-z in either case together with U+017F and U+212A, `Mask` on a new
engine turns `P ++ L ++ "@" ++ D` into `P ++ hashEmail (L ++ "@" ++ D)` and
records exactly one entry, whose original is the whole of `L ++ "@" ++ D`. -/
theorem Mask_single_address (P L D : List Char) (hL : L ≠ [])
    (hLc : ∀ c ∈ L, c ∈ localChars) (hD : IsDomain alnumChars D) (hP : '@' ∉ P)
    (hPl : ∀ c ∈ P.getLast?, c ∉ localChars) :
    New.Mask ⟨P ++ (L ++ '@' :: D)⟩ =
      (⟨P ++ (hashEmail ⟨L ++ '@' :: D⟩).data⟩,
        { replacements := [{ Original := ⟨L ++ '@' :: D⟩,
                             Masked := hashEmail ⟨L ++ '@' :: D⟩ }] }) := by
  rw [Mask_eq_stitch]
  simp only [findAll_single P L D hL hLc hD hP hPl, stitch]
  have h1 : regexp.slice (P ++ (L ++ '@' :: D)) 0 P.length = P := by simp [regexp.slice]
  have h2 : regexp.slice (P ++ (L ++ '@' :: D)) P.length (P ++ (L ++ '@' :: D)).length
      = L ++ '@' :: D := by simp [regexp.slice]
  rw [h1, h2, List.drop_length]
  simp [maskOne, New]

theorem Mask_single_address_witness :
    New.Mask ⟨"RFC violation: ".data ++ ("user..name".data ++ '@' :: "example.com".data)⟩ =
      (⟨"RFC violation: ".data
          ++ (hashEmail ⟨"user..name".data ++ '@' :: "example.com".data⟩).data⟩,
        { replacements := [{ Original := ⟨"user..name".data ++ '@' :: "example.com".data⟩,
                             Masked := hashEmail
                               ⟨"user..name".data ++ '@' :: "example.com".data⟩ }] }) ∧
    New.Mask "RFC violation: user..name@example.com" =
      ("RFC violation: b316055c3190f3",
        { replacements := [⟨"user..name@example.com", "b316055c3190f3"⟩] }) :=
  ⟨Mask_single_address "RFC violation: ".data "user..name".data "example.com".data
    (by decide) (by decide) ⟨["example".data, "com".data], rfl, by decide, by
      intro l hl
      simp only [List.mem_cons, List.mem_singleton, List.not_mem_nil, or_false] at hl
      rcases hl with rfl | rfl <;> (unfold IsLabel; decide)⟩
    (by decide) (by decide), by decide⟩

/-- C11: whatever the ledger, `Reset` followed by `GetReplacements` gives
the empty sequence, and `Reset` twice leaves the same state as `Reset`
once. -/
theorem Reset_clears (m : Masker) :
    m.Reset.GetReplacements = [] ∧ m.Reset.Reset = m.Reset :=
  ⟨rfl, rfl⟩

theorem run_cons (m : Masker) (c : Call) (cs : List Call) :
    run m (c :: cs) = run (step m c) cs := rfl

theorem step_replacements (m : Masker) (c : Call) :
    (step m c).replacements = (if c.isReset then [] else m.replacements) ++ entriesOf c := by
  cases c with
  | mask text => simp [step, Call.isReset, entriesOf, Mask_replacements]
  | reset => simp [step, Call.isReset, entriesOf, Masker.Reset]

theorem sinceReset_of_no_reset : ∀ cs : List Call, cs.any Call.isReset = false →
    sinceReset cs = cs := by
  intro cs
  induction cs with
  | nil => intro _; rfl
  | cons c cs ih =>
    intro h
    simp only [List.any_cons, Bool.or_eq_false_iff] at h
    simp [sinceReset, h.1, h.2]

theorem run_replacements : ∀ (calls : List Call) (m : Masker),
    (run m calls).replacements
      = (if calls.any Call.isReset then [] else m.replacements)
          ++ (sinceReset calls).flatMap entriesOf := by
  intro calls
  induction calls with
  | nil => intro m; simp [run, sinceReset]
  | cons c cs ih =>
    intro m
    rw [run_cons, ih, step_replacements]
    by_cases h1 : cs.any Call.isReset = true
    · simp [sinceReset, h1]
    · have h1f : cs.any Call.isReset = false := by simpa using h1
      by_cases h2 : c.isReset = true
      · simp [sinceReset, h1f, h2, sinceReset_of_no_reset cs h1f]
        cases c with
        | mask t => simp [Call.isReset] at h2
        | reset => rfl
      · have h2f : c.isReset = false := by simpa using h2
        simp [sinceReset, h1f, h2f, sinceReset_of_no_reset cs h1f, List.append_assoc]

/-- C12: after any sequence of `Mask` and `Reset` calls on a new engine,
`GetReplacements` is the concatenation, in call order, of the match entries
of the `Mask` calls made after the most recent `Reset`; a new engine has an
empty ledger, and a `Mask` call keeps every earlier entry in place. -/
theorem GetReplacements_since_reset (calls : List Call) :
    (run New calls).GetReplacements = (sinceReset calls).flatMap entriesOf ∧
    New.GetReplacements = [] ∧
    ∀ (m : Masker) (text : String),
      (m.Mask text).2.GetReplacements
        = m.GetReplacements ++ (FindAllString emailRegex text.data).map entry := by
  refine ⟨?_, rfl, fun m text => Mask_replacements m text⟩
  rw [Masker.GetReplacements, run_replacements]
  simp [New]

theorem sinceReset_subset : ∀ (calls : List Call) (c : Call), c ∈ sinceReset calls → c ∈ calls := by
  intro calls
  induction calls with
  | nil => intro c h; simp [sinceReset] at h
  | cons d cs ih =>
    intro c h
    simp only [sinceReset] at h
    split at h
    · exact List.mem_cons_of_mem _ (ih c h)
    · split at h
      · exact List.mem_cons_of_mem _ h
      · exact h

/-- C13: in every state reached from a new engine by `Mask` and `Reset`
calls, every ledger entry has `Masked = hashEmail Original`, a non-empty
`Original`, and an `Original` that the matcher matched in the text of one of
the `Mask` calls. -/
theorem ledger_invariant (calls : List Call) :
    ∀ r ∈ (run New calls).replacements,
      r.Masked = hashEmail r.Original ∧ r.Original ≠ "" ∧
      ∃ text : String, Call.mask text ∈ calls ∧
        r.Original.data ∈ FindAllString emailRegex text.data := by
  intro r hr
  rw [run_replacements] at hr
  simp only [New, ite_self, List.nil_append, List.mem_flatMap] at hr
  obtain ⟨c, hc, hrc⟩ := hr
  cases c with
  | reset => simp [entriesOf] at hrc
  | mask text =>
    simp only [entriesOf, List.mem_map] at hrc
    obtain ⟨w, hw, rfl⟩ := hrc
    refine ⟨rfl, ?_, text, sinceReset_subset calls _ hc, hw⟩
    intro h0
    have hne := (Lang_email w (findAll_mem _ w hw).1).ne_nil
    apply hne
    have := congrArg String.data h0
    simpa [entry] using this

theorem ledger_invariant_witness :
    (⟨"other@test.org", "8215fb25fa4709"⟩ : Replacement)
      ∈ (run New [.mask "x@y.zz", .reset,
          .mask "Contact test@example.com and other@test.org"]).replacements ∧
    ("8215fb25fa4709" = hashEmail "other@test.org" ∧ "other@test.org" ≠ "" ∧
      ∃ text : String,
        Call.mask text ∈ [Call.mask "x@y.zz", .reset,
          .mask "Contact test@example.com and other@test.org"] ∧
        "other@test.org".data ∈ FindAllString emailRegex text.data) :=
  ⟨by decide,
    ledger_invariant [.mask "x@y.zz", .reset, .mask "Contact test@example.com and other@test.org"]
      ⟨"other@test.org", "8215fb25fa4709"⟩ (by decide)⟩

theorem Mask_output_indep (text : String) (m1 m2 : Masker) :
    (m1.Mask text).1 = (m2.Mask text).1 :=
  String.ext ((Mask_output m1 text).trans (Mask_output m2 text).symm)

/-- C14: masking does not depend on the ledger: on any two engines `Mask`
returns the same text and appends the same entries. -/
theorem Mask_deterministic (text : String) (m1 m2 : Masker) :
    (m1.Mask text).1 = (m2.Mask text).1 ∧
    ∃ added : List Replacement,
      (m1.Mask text).2.replacements = m1.replacements ++ added ∧
      (m2.Mask text).2.replacements = m2.replacements ++ added := by
  exact ⟨Mask_output_indep text m1 m2, _, Mask_replacements m1 text, Mask_replacements m2 text⟩

/-- C15: the tokens of the distinct fixture addresses differ:
`test@example.com` and `other@example.com`, `user1@test.com` and
`user2@test.org`. -/
theorem fixture_tokens_differ :
    hashEmail "test@example.com" ≠ hashEmail "other@example.com" ∧
    hashEmail "user1@test.com" ≠ hashEmail "user2@test.org" :=
  ⟨by decide, by decide⟩

end masker

namespace maskat

open masker

/-- C17: with the command `list-sensitive-data` and the variable
`MASKAT_LIST_SENSITIVE_DATA` unset or empty, whatever the standard input,
the program exits with status 1, names the variable on standard error and
prints nothing on standard output. -/
theorem list_refused_without_opt_in (prog : String) (rest : List String)
    (env : String → Option String) (stdin : List Char)
    (h : env "MASKAT_LIST_SENSITIVE_DATA" = none ∨ env "MASKAT_LIST_SENSITIVE_DATA" = some "") :
    (main (prog :: "list-sensitive-data" :: rest) env stdin).exit = 1 ∧
    (main (prog :: "list-sensitive-data" :: rest) env stdin).stdout = [] ∧
    "MASKAT_LIST_SENSITIVE_DATA".data <:+:
      (main (prog :: "list-sensitive-data" :: rest) env stdin).stderr := by
  have hg : Getenv env envListSensitiveData = "" := by
    rcases h with h | h <;> simp [Getenv, envListSensitiveData, h]
  simp only [main, if_true, runListSensitiveData, hg]
  refine ⟨trivial, trivial, "Error: ".data,
    (" environment variable is not set\n"
      ++ "This command requires explicit opt-in for security reasons.\n").data, ?_⟩
  decide

theorem list_refused_without_opt_in_witness :
    (main ["maskat", "list-sensitive-data"] (fun _ => none) "test@example.com".data).exit = 1 ∧
    (main ["maskat", "list-sensitive-data"] (fun _ => none) "test@example.com".data).stdout = [] ∧
    "MASKAT_LIST_SENSITIVE_DATA".data <:+:
      (main ["maskat", "list-sensitive-data"] (fun _ => none) "test@example.com".data).stderr :=
  list_refused_without_opt_in "maskat" [] (fun _ => none) "test@example.com".data (Or.inl rfl)

theorem maskLines_stdout : ∀ (lines : List (List Char)) (m : Masker),
    (maskLines m lines).1 = lines.flatMap (fun l => (New.Mask ⟨l⟩).1.data ++ ['\n']) := by
  intro lines
  induction lines with
  | nil => intro m; rfl
  | cons l rest ih =>
    intro m
    simp only [maskLines, List.flatMap_cons, ih]
    rw [Mask_output_indep ⟨l⟩ m New]
    simp

theorem dropCR_eq_withoutFinalCR : ∀ l : List Char, bufio.dropCR l = withoutFinalCR l := by
  intro l
  induction l with
  | nil => rfl
  | cons c t ih =>
    cases t with
    | nil =>
      by_cases h : c = '\r'
      · simp [bufio.dropCR, withoutFinalCR, h]
      · simp [bufio.dropCR, withoutFinalCR, h]
    | cons d t =>
      simp only [bufio.dropCR, withoutFinalCR, List.getLast?_cons_cons,
        List.dropLast_cons₂] at ih ⊢
      rw [← ih]
      split <;> rfl

theorem modifyHead_nil_append (X : List (List Char)) :
    X.modifyHead (fun x => [] ++ x) = X := by
  cases X <;> simp [List.modifyHead]

theorem modifyHead_append_cons (cur : List Char) (c : Char) (X : List (List Char)) :
    (X.modifyHead (List.cons c)).modifyHead (fun x => cur ++ x)
      = X.modifyHead (fun x => (cur ++ [c]) ++ x) := by
  cases X <;> simp [List.modifyHead]

theorem splitOn_newline_cons (s : List Char) :
    ('\n' :: s).splitOn '\n' = [] :: s.splitOn '\n' := by
  simp [List.splitOn, List.splitOnP_cons]

theorem splitOn_other_cons (c : Char) (s : List Char) (h : c ≠ '\n') :
    (c :: s).splitOn '\n' = (s.splitOn '\n').modifyHead (List.cons c) := by
  simp [List.splitOn, List.splitOnP_cons, h]

/-- On an input whose pieces between newlines are all shorter than the
buffer the scanner delivers every line, without the carriage return at its
end, and reports no error; `cur` is the part of the first piece already
read. -/
theorem scanLines_eq (max : Nat) : ∀ (s cur : List Char),
    (∀ l ∈ (s.splitOn '\n').modifyHead (fun x => cur ++ x), (utf8.encode l).length < max) →
    bufio.scanLines max s cur =
      ((if ((s.splitOn '\n').modifyHead (fun x => cur ++ x)).getLast? = some []
          then ((s.splitOn '\n').modifyHead (fun x => cur ++ x)).dropLast
        else (s.splitOn '\n').modifyHead (fun x => cur ++ x)).map bufio.dropCR, false) := by
  intro s
  induction s with
  | nil =>
    intro cur h
    have e : ([] : List Char).splitOn '\n' = [[]] := by simp [List.splitOn, List.splitOnP_nil]
    rw [e] at h ⊢
    have hc := h cur (by simp [List.modifyHead])
    by_cases h0 : cur = []
    · simp [bufio.scanLines, List.modifyHead, h0]
    · simp [bufio.scanLines, List.modifyHead, h0, Nat.not_le.2 hc]
  | cons c s ih =>
    intro cur h
    by_cases hn : c = '\n'
    · subst hn
      rw [splitOn_newline_cons] at h ⊢
      simp only [List.modifyHead, List.append_nil] at h ⊢
      have hc := h cur (by simp)
      have ih1 := ih [] (by
        rw [modifyHead_nil_append]
        exact fun l hl => h l (List.mem_cons_of_mem _ hl))
      rw [modifyHead_nil_append] at ih1
      obtain ⟨x, xs, hx⟩ := List.exists_cons_of_ne_nil (List.splitOnP_ne_nil (· == '\n') s)
      have hx2 : s.splitOn '\n' = x :: xs := hx
      simp only [bufio.scanLines, if_true, Nat.not_le.2 hc, if_false, ih1]
      rw [hx2]
      simp only [List.getLast?_cons_cons, List.dropLast_cons₂]
      split <;> simp
    · rw [splitOn_other_cons c s hn] at h ⊢
      rw [modifyHead_append_cons] at h ⊢
      simp only [bufio.scanLines, hn, if_false]
      exact ih _ h

/-- Every piece of an input between newlines is one of its lines or is
empty. -/
theorem mem_splitOn_cases (stdin l : List Char) (h : l ∈ stdin.splitOn '\n') :
    l ∈ specLines stdin ∨ l = [] := by
  unfold specLines
  split
  · rename_i hl
    have hd := List.dropLast_append_getLast? [] (Option.mem_def.2 hl)
    rw [← hd] at h
    rcases List.mem_append.1 h with h1 | h1
    · exact Or.inl h1
    · exact Or.inr (List.mem_singleton.1 h1)
  · exact Or.inl h

/-- On an input whose lines are all shorter than the buffer, the scanner of
`runMask` delivers the lines of the input, each without the carriage return
at its end, and reports no error. -/
theorem scanLines_specLines (stdin : List Char)
    (h : ∀ l ∈ specLines stdin, (utf8.encode l).length < maxCapacity) :
    bufio.scanLines maxCapacity stdin [] = ((specLines stdin).map withoutFinalCR, false) := by
  have h1 : ∀ l ∈ (stdin.splitOn '\n').modifyHead (fun x => [] ++ x),
      (utf8.encode l).length < maxCapacity := by
    rw [modifyHead_nil_append]
    intro l hl
    rcases mem_splitOn_cases stdin l hl with h2 | h2
    · exact h l h2
    · subst h2; decide
  rw [scanLines_eq maxCapacity stdin [] h1, modifyHead_nil_append]
  have e : bufio.dropCR = withoutFinalCR := funext dropCR_eq_withoutFinalCR
  rw [e]
  rfl

/-- C18, as stated, fails: the input `x\r\n` has the single line `x\r`,
shorter than the buffer, and `Mask` of that line followed by a newline is
`x\r\n`, but the program prints `x\n`: the carriage return is dropped. -/
theorem default_mode_drops_carriage_return :
    specLines "x\r\n".data = ["x\r".data] ∧
    (∀ l ∈ specLines "x\r\n".data, (utf8.encode l).length < maxCapacity) ∧
    (specLines "x\r\n".data).flatMap (fun l => (New.Mask ⟨l⟩).1.data ++ ['\n']) = "x\r\n".data ∧
    main ["maskat"] (fun _ => none) "x\r\n".data =
      { stdout := "x\n".data, stderr := [], exit := 0 } ∧
    (main ["maskat"] (fun _ => none) "x\r\n".data).stdout ≠
      (specLines "x\r\n".data).flatMap (fun l => (New.Mask ⟨l⟩).1.data ++ ['\n']) := by
  decide

/-- C18, amended: in default mode, on an input whose lines, the carriage
return before the newline counted in, are all shorter than the 1 MiB buffer,
the program prints, for every input line in order, `Mask` of that line
without the carriage return at its end, followed by a newline, writes
nothing to standard error and exits with status 0; a line with no match is
printed as it is, apart from that carriage return; empty input gives empty
output. -/
theorem default_mode_masks_lines (prog : String) (env : String → Option String)
    (stdin : List Char)
    (h : ∀ l ∈ specLines stdin, (utf8.encode l).length < maxCapacity) :
    main [prog] env stdin =
      { stdout := (specLines stdin).flatMap
          (fun l => (New.Mask ⟨withoutFinalCR l⟩).1.data ++ ['\n']),
        stderr := [], exit := 0 } ∧
    (∀ l ∈ specLines stdin, regexp.FindAllString emailRegex (withoutFinalCR l) = [] →
      (New.Mask ⟨withoutFinalCR l⟩).1.data = withoutFinalCR l) ∧
    main [prog] env [] = { stdout := [], stderr := [], exit := 0 } := by
  refine ⟨?_, ?_, rfl⟩
  · simp only [main, runMask, scanLines_specLines stdin h, maskLines_stdout,
      List.flatMap_map]
    rfl
  · intro l _ hl
    have hidx : regexp.FindAllStringIndex emailRegex (withoutFinalCR l) = [] := by
      simpa [regexp.FindAllString] using hl
    rw [Mask_eq_stitch, hidx]
    simp [regexp.stitch]

theorem default_mode_masks_lines_witness :
    main ["maskat"] (fun _ => none)
        "Line 1: user1@example.com\r\nLine 2: user2@test.org\nLine 3: no email here".data =
      { stdout := ("Line 1: b36a83701f1c31\nLine 2: 4a63b48c70d1ef\n"
          ++ "Line 3: no email here\n").data,
        stderr := [], exit := 0 } := by
  have h := (default_mode_masks_lines "maskat" (fun _ => none)
    "Line 1: user1@example.com\r\nLine 2: user2@test.org\nLine 3: no email here".data
    (by decide)).1
  rw [h]
  decide

end maskat

namespace heap

open regexp masker

theorem getD_set_self (h : Heap) (i : Nat) (a : List Replacement) (hi : i < h.length) :
    (h.set i a).getD i [] = a := by
  simp [List.getD_eq_getElem?_getD, List.getElem?_set, hi]

theorem getD_append_left (h : Heap) (i : Nat) (a : List Replacement) (hi : i < h.length) :
    (h ++ [a]).getD i [] = h.getD i [] := by
  simp [List.getD_eq_getElem?_getD, List.getElem?_append_left hi]

theorem getD_append_new (h : Heap) (a : List Replacement) :
    (h ++ [a]).getD h.length [] = a := by
  simp [List.getD_eq_getElem?_getD]

theorem take_set_self : ∀ (l : List Replacement) (n : Nat) (v : Replacement),
    (l.set n v).take n = l.take n := by
  intro l
  induction l with
  | nil => intro n v; simp
  | cons a l ih =>
    intro n v
    cases n with
    | zero => simp
    | succ n => simp [ih]

theorem take_succ_set : ∀ (l : List Replacement) (n : Nat) (v : Replacement), n < l.length →
    (l.set n v).take (n + 1) = l.take n ++ [v] := by
  intro l
  induction l with
  | nil => intro n v hn; simp at hn
  | cons a l ih =>
    intro n v hn
    cases n with
    | zero => simp
    | succ n => simp [ih n v (by simpa using hn)]

theorem take_length_append (a r : List Replacement) (n : Nat) (hn : n = a.length) :
    (a ++ r).take n = a := by
  subst hn
  simp

theorem elems_length (h : Heap) (s : Slice) (hv : s.Valid h) : (s.elems h).length = s.len := by
  obtain ⟨_, h2, _⟩ := hv
  simp only [Slice.elems, List.length_take]
  omega

/-- After `append` the slice shows the old elements and the new one. -/
theorem append_elems (grow : Nat → Nat → Nat) (h : Heap) (s : Slice) (v : Replacement)
    (hv : s.Valid h) :
    (append grow h s v).2.Valid (append grow h s v).1 ∧
    (append grow h s v).2.elems (append grow h s v).1 = s.elems h ++ [v] := by
  have hel := elems_length h s hv
  obtain ⟨h1, h2, h3⟩ := hv
  unfold append
  split
  · rename_i hlt
    have hlen : s.len < (h.getD s.array []).length := by omega
    refine ⟨⟨by simpa using h1, ?_, ?_⟩, ?_⟩
    · show s.len + 1 ≤ ((h.set s.array ((h.getD s.array []).set s.len v)).getD s.array []).length
      rw [getD_set_self h _ _ h1, List.length_set]
      omega
    · show s.cap ≤ ((h.set s.array ((h.getD s.array []).set s.len v)).getD s.array []).length
      rw [getD_set_self h _ _ h1, List.length_set]
      exact h3
    · show ((h.set s.array ((h.getD s.array []).set s.len v)).getD s.array []).take (s.len + 1)
        = (h.getD s.array []).take s.len ++ [v]
      rw [getD_set_self h _ _ h1, take_succ_set _ _ _ hlen]
  · have hnew : (s.elems h ++ [v]
        ++ List.replicate (grow s.cap (s.len + 1) - (s.len + 1)) zero).length
        = s.len + 1 + (grow s.cap (s.len + 1) - (s.len + 1)) := by
      simp only [List.length_append, List.length_replicate, List.length_singleton, hel]
    refine ⟨⟨by simp, ?_, ?_⟩, ?_⟩
    · show s.len + 1 ≤ ((h ++ [_]).getD h.length []).length
      rw [getD_append_new, hnew]
      omega
    · show grow s.cap (s.len + 1) ≤ ((h ++ [_]).getD h.length []).length
      rw [getD_append_new, hnew]
      omega
    · show ((h ++ [_]).getD h.length []).take (s.len + 1) = s.elems h ++ [v]
      rw [getD_append_new]
      exact take_length_append _ _ _ (by simp [hel])

theorem take_set_lt : ∀ (l : List Replacement) (n i : Nat) (v : Replacement),
    (l.set i v).take n = (l.take n).set i v := by
  intro l
  induction l with
  | nil => intro n i v; simp
  | cons a l ih =>
    intro n i v
    cases n with
    | zero => simp
    | succ n =>
      cases i with
      | zero => simp
      | succ i => simp [ih]

theorem make_valid (h : Heap) : (make h).2.Valid (make h).1 ∧ (make h).2.elems (make h).1 = [] := by
  refine ⟨⟨by simp [make], ?_, ?_⟩, ?_⟩ <;> simp [make, Slice.elems]

theorem stitch_refines (grow : Nat → Nat → Nat) (src : List Char) :
    ∀ (idx : List (Nat × Nat)) (e : Nat) (st : Heap × Slice) (m : masker.Masker),
      st.2.Valid st.1 → st.2.elems st.1 = m.replacements →
      (stitch src (maskOne grow) e idx st).1 = (stitch src masker.maskOne e idx m).1 ∧
      (stitch src (maskOne grow) e idx st).2.2.Valid (stitch src (maskOne grow) e idx st).2.1 ∧
      (stitch src (maskOne grow) e idx st).2.2.elems (stitch src (maskOne grow) e idx st).2.1
        = (stitch src masker.maskOne e idx m).2.replacements := by
  intro idx
  induction idx with
  | nil => intro e st m hv hel; exact ⟨rfl, hv, hel⟩
  | cons a rest ih =>
    intro e st m hv hel
    have hap := append_elems grow st.1 st.2
      ⟨⟨regexp.slice src a.1 a.2⟩, hashEmail ⟨regexp.slice src a.1 a.2⟩⟩ hv
    obtain ⟨i1, i2, i3⟩ := ih a.2 (maskOne grow st (regexp.slice src a.1 a.2)).2
      (masker.maskOne m (regexp.slice src a.1 a.2)).2 hap.1 (by
        rw [show (maskOne grow st (regexp.slice src a.1 a.2)).2 = append grow st.1 st.2
          ⟨⟨regexp.slice src a.1 a.2⟩, hashEmail ⟨regexp.slice src a.1 a.2⟩⟩ from rfl, hap.2, hel]
        rfl)
    refine ⟨?_, i2, i3⟩
    simp only [stitch]
    rw [i1]
    rfl

/-- The engine on the heap does what the engine on plain sequences does:
`Mask` returns the same text, and the ledger slice afterwards shows the
ledger of the plain engine. -/
theorem Mask_refines (grow : Nat → Nat → Nat) (h : Heap) (m : Masker) (text : String)
    (hv : m.replacements.Valid h) :
    (m.Mask grow h text).1 = (masker.Masker.Mask ⟨m.replacements.elems h⟩ text).1 ∧
    (m.Mask grow h text).2.2.replacements.Valid (m.Mask grow h text).2.1 ∧
    (m.Mask grow h text).2.2.replacements.elems (m.Mask grow h text).2.1
      = (masker.Masker.Mask ⟨m.replacements.elems h⟩ text).2.replacements := by
  obtain ⟨i1, i2, i3⟩ := stitch_refines grow text.data
    (FindAllStringIndex emailRegex text.data) 0 (h, m.replacements) ⟨m.replacements.elems h⟩ hv rfl
  simp only [Masker.Mask, masker.Masker.Mask,
    ReplaceAllStringFunc_eq_stitch emailRegex emailRegex_noEmpty]
  exact ⟨by rw [i1], i2, i3⟩

/-- C16, as stated, fails: after `Mask` of `Email: test@example.com` on a
new engine, overwriting element 0 of the slice returned by `GetReplacements`
changes what the next `GetReplacements` shows. -/
theorem GetReplacements_aliases_ledger :
    ((New []).2.Mask growslice (New []).1 "Email: test@example.com").2.2.GetReplacements.elems
        (Slice.set ((New []).2.Mask growslice (New []).1 "Email: test@example.com").2.1
          ((New []).2.Mask growslice (New []).1 "Email: test@example.com").2.2.GetReplacements
          0 ⟨"overwritten", "by the caller"⟩)
      = [⟨"overwritten", "by the caller"⟩] ∧
    ((New []).2.Mask growslice (New []).1 "Email: test@example.com").2.2.GetReplacements.elems
        ((New []).2.Mask growslice (New []).1 "Email: test@example.com").2.1
      = [⟨"test@example.com", "973dfe463ec857"⟩] := by
  constructor <;> decide

/-- C16, amended: `GetReplacements` returns the ledger slice itself.
Appending to the returned slice does not change what a later
`GetReplacements` shows; overwriting element `i` of the returned slice
replaces element `i` of what a later `GetReplacements` shows. -/
theorem GetReplacements_shares_array (grow : Nat → Nat → Nat) (h : Heap) (m : Masker)
    (hv : m.replacements.Valid h) :
    (∀ v : Replacement,
      m.GetReplacements.elems (append grow h m.GetReplacements v).1 = m.GetReplacements.elems h) ∧
    (∀ (i : Nat) (v : Replacement), i < m.GetReplacements.len →
      m.GetReplacements.elems (Slice.set h m.GetReplacements i v)
        = (m.GetReplacements.elems h).set i v) := by
  obtain ⟨h1, h2, h3⟩ := hv
  simp only [Masker.GetReplacements]
  constructor
  · intro v
    unfold append
    split
    · show ((h.set m.replacements.array _).getD m.replacements.array []).take m.replacements.len
        = (h.getD m.replacements.array []).take m.replacements.len
      rw [getD_set_self h _ _ h1, take_set_self]
    · show ((h ++ [_]).getD m.replacements.array []).take m.replacements.len
        = (h.getD m.replacements.array []).take m.replacements.len
      rw [getD_append_left h _ _ h1]
  · intro i v hi
    have hi1 : i < m.replacements.len := hi
    show ((Slice.set h m.replacements i v).getD m.replacements.array []).take m.replacements.len
      = ((h.getD m.replacements.array []).take m.replacements.len).set i v
    rw [Slice.set, if_pos hi1, getD_set_self h _ _ h1, take_set_lt]

theorem GetReplacements_shares_array_witness :
    ((New []).2.Mask growslice (New []).1 "a@b.c").2.2.GetReplacements.elems
        (append growslice ((New []).2.Mask growslice (New []).1 "a@b.c").2.1
          ((New []).2.Mask growslice (New []).1 "a@b.c").2.2.GetReplacements ⟨"x", "y"⟩).1
      = ((New []).2.Mask growslice (New []).1 "a@b.c").2.2.GetReplacements.elems
          ((New []).2.Mask growslice (New []).1 "a@b.c").2.1 ∧
    ((New []).2.Mask growslice (New []).1 "a@b.c").2.2.GetReplacements.elems
        (Slice.set ((New []).2.Mask growslice (New []).1 "a@b.c").2.1
          ((New []).2.Mask growslice (New []).1 "a@b.c").2.2.GetReplacements 0 ⟨"x", "y"⟩)
      = (((New []).2.Mask growslice (New []).1 "a@b.c").2.2.GetReplacements.elems
          ((New []).2.Mask growslice (New []).1 "a@b.c").2.1).set 0 ⟨"x", "y"⟩ :=
  ⟨(GetReplacements_shares_array growslice
      ((New []).2.Mask growslice (New []).1 "a@b.c").2.1
      ((New []).2.Mask growslice (New []).1 "a@b.c").2.2
      (Mask_refines growslice (New []).1 (New []).2 "a@b.c" (make_valid []).1).2.1).1 ⟨"x", "y"⟩,
    (GetReplacements_shares_array growslice
      ((New []).2.Mask growslice (New []).1 "a@b.c").2.1
      ((New []).2.Mask growslice (New []).1 "a@b.c").2.2
      (Mask_refines growslice (New []).1 (New []).2 "a@b.c" (make_valid []).1).2.1).2 0
        ⟨"x", "y"⟩ (by decide)⟩

end heap

namespace regexp

theorem loopRuns_sep (body : List Char → List (List Char)) (c : Char) (v : List Char)
    (hb : ∀ u, body (u ++ c :: v) = (body u).map (fun t => t ++ c :: v)) :
    ∀ (n m : Nat) (u : List Char), u.length ≤ n → u.length ≤ m →
      loopRuns body n (u ++ c :: v) = (loopRuns body m u).map (fun t => t ++ c :: v) := by
  intro n
  induction n with
  | zero =>
    intro m u hn _
    have hu : u = [] := List.length_eq_zero.1 (Nat.le_zero.1 hn)
    subst hu
    cases m with
    | zero => rfl
    | succ m =>
      simp only [loopRuns, List.nil_append, List.length_nil, Nat.not_lt_zero, if_false,
        List.map_append, List.map_cons, List.map_nil]
      rw [List.flatMap_eq_nil_iff.2 (fun _ _ => rfl)]
      rfl
  | succ n ih =>
    intro m u hn hm
    cases m with
    | zero =>
      have hu : u = [] := List.length_eq_zero.1 (Nat.le_zero.1 hm)
      subst hu
      have h0 := hb []
      simp only [List.nil_append] at h0
      simp only [loopRuns, List.nil_append, h0, List.map_cons, List.map_nil, List.flatMap_map]
      rw [List.flatMap_eq_nil_iff.2 (fun t _ => by
        simp only [List.length_append, List.length_cons]
        rw [if_neg (by omega)])]
      rfl
    | succ m =>
      simp only [loopRuns, hb u, List.flatMap_map, List.map_append, List.map_cons, List.map_nil,
        List.map_flatMap]
      congr 1
      apply List.flatMap_congr
      intro t _
      by_cases ht : t.length < u.length
      · have h1 : (t ++ c :: v).length < (u ++ c :: v).length := by
          simp only [List.length_append, List.length_cons]; omega
        rw [if_pos h1, if_pos ht]
        exact ih m t (by omega) (by omega)
      · have h1 : ¬ (t ++ c :: v).length < (u ++ c :: v).length := by
          simp only [List.length_append, List.length_cons]; omega
        rw [if_neg h1, if_neg ht]
        rfl

/-- A character that no class accepts stops every match: the ways to match
in front of it are the ways to match the text before it. -/
theorem Regexp.runs_sep (c : Char) (v : List Char) : ∀ (re : Regexp), re.rejects c = true →
    ∀ u : List Char, re.runs (u ++ c :: v) = (re.runs u).map (fun t => t ++ c :: v) := by
  intro re
  induction re with
  | charClass cl =>
    intro h u
    simp only [Regexp.rejects, Bool.not_eq_true'] at h
    cases u with
    | nil => simp [Regexp.runs, h]
    | cons x u =>
      simp only [Regexp.runs, List.cons_append]
      split <;> rfl
  | concat a b iha ihb =>
    intro h u
    simp only [Regexp.rejects, Bool.and_eq_true] at h
    simp only [Regexp.runs, iha h.1 u, List.flatMap_map, List.map_flatMap]
    apply List.flatMap_congr
    intro t _
    exact ihb h.2 t
  | quest a iha =>
    intro h u
    simp only [Regexp.rejects] at h
    simp only [Regexp.runs, iha h u, List.map_append, List.map_cons, List.map_nil]
  | star a iha =>
    intro h u
    simp only [Regexp.rejects] at h
    simp only [Regexp.runs]
    exact loopRuns_sep a.runs c v (iha h) _ _ u (by simp) (Nat.le_refl _)
  | plus a iha =>
    intro h u
    simp only [Regexp.rejects] at h
    simp only [Regexp.runs, iha h u, List.flatMap_map, List.map_flatMap]
    apply List.flatMap_congr
    intro t _
    exact loopRuns_sep a.runs c v (iha h) _ _ t (by simp) (Nat.le_refl _)

theorem Regexp.runs_nil_of_noEmpty (re : Regexp) (hne : re.NoEmpty) : re.runs [] = [] := by
  rw [List.eq_nil_iff_forall_not_mem]
  intro t ht
  have := re.runs_length_lt hne [] t ht
  simp at this

theorem searchFrom_nil (re : Regexp) (hne : re.NoEmpty) (pos : Nat) :
    searchFrom re [] pos = none := by
  simp [searchFrom, re.runs_nil_of_noEmpty hne]

theorem searchFrom_shift (re : Regexp) (d : Nat) : ∀ (s : List Char) (pos : Nat),
    searchFrom re s (pos + d) = (searchFrom re s pos).map (shift d) := by
  intro s
  induction s with
  | nil =>
    intro pos
    simp only [searchFrom]
    split <;> simp [shift, Nat.add_assoc]
  | cons x s ih =>
    intro pos
    simp only [searchFrom]
    split
    · simp only [Option.map_some', shift, Option.some.injEq, Prod.mk.injEq, true_and]
      omega
    · rw [show pos + d + 1 = (pos + 1) + d by omega]
      exact ih (pos + 1)

theorem searchFrom_sep (re : Regexp) (hne : re.NoEmpty) (c : Char) (hc : re.rejects c = true)
    (v : List Char) : ∀ (u : List Char) (pos : Nat),
    searchFrom re (u ++ c :: v) pos =
      match searchFrom re u pos with
      | some x => some x
      | none => searchFrom re v (pos + u.length + 1) := by
  intro u
  induction u with
  | nil =>
    intro pos
    have h0 := re.runs_sep c v hc []
    simp only [List.nil_append, re.runs_nil_of_noEmpty hne, List.map_nil] at h0
    simp [searchFrom, h0, re.runs_nil_of_noEmpty hne]
  | cons x u ih =>
    intro pos
    have h0 := re.runs_sep c v hc (x :: u)
    simp only [List.cons_append] at h0
    have e1 : searchFrom re (x :: (u ++ c :: v)) pos =
        match re.runs (x :: (u ++ c :: v)) with
        | t :: _ => some (pos, pos + ((x :: (u ++ c :: v)).length - t.length))
        | [] => searchFrom re (u ++ c :: v) (pos + 1) := rfl
    have e2 : searchFrom re (x :: u) pos =
        match re.runs (x :: u) with
        | t :: _ => some (pos, pos + ((x :: u).length - t.length))
        | [] => searchFrom re u (pos + 1) := rfl
    rw [List.cons_append, e1, e2, h0]
    cases hr : re.runs (x :: u) with
    | nil =>
      simp only [List.map_nil]
      rw [ih (pos + 1)]
      simp only [List.length_cons]
      rw [show pos + 1 + u.length + 1 = pos + (u.length + 1) + 1 by omega]
    | cons t tl =>
      simp only [List.map_cons, List.length_cons, List.length_append, Option.some.injEq,
        Prod.mk.injEq, true_and]
      omega

theorem allMatchesLoop_fuel (re : Regexp) (hne : re.NoEmpty) (src : List Char) :
    ∀ (f g pos : Nat) (p q : Int), pos ≤ src.length → src.length - pos < f →
      src.length - pos < g → allMatchesLoop re src f pos p = allMatchesLoop re src g pos q := by
  intro f
  induction f with
  | zero => intro g pos p q _ h; omega
  | succ f ih =>
    intro g pos p q hpos hf hg
    cases g with
    | zero => omega
    | succ g =>
      rw [allMatchesLoop_step re hne src f pos p hpos, allMatchesLoop_step re hne src g pos q hpos]
      cases h : doExecute re src pos with
      | none => rfl
      | some a =>
        obtain ⟨a0, a1⟩ := a
        obtain ⟨h3, h4, h5, _⟩ := doExecute_some re hne src pos a0 a1 hpos h
        simp only []
        rw [ih g a1 a1 a1 h5 (by omega) (by omega)]

theorem findAll_eq_matchesFrom (re : Regexp) (hne : re.NoEmpty) (src : List Char) :
    FindAllStringIndex re src = matchesFrom re src 0 :=
  allMatchesLoop_fuel re hne src _ _ 0 _ _ (Nat.zero_le _) (by omega) (by omega)

theorem matchesFrom_step (re : Regexp) (hne : re.NoEmpty) (src : List Char) (pos : Nat)
    (hpos : pos ≤ src.length) :
    matchesFrom re src pos =
      match doExecute re src pos with
      | none => []
      | some (a0, a1) => (a0, a1) :: matchesFrom re src a1 := by
  rw [matchesFrom, show src.length + 1 - pos = (src.length - pos) + 1 by omega,
    allMatchesLoop_step re hne src _ pos _ hpos]
  cases h : doExecute re src pos with
  | none => rfl
  | some a =>
    obtain ⟨a0, a1⟩ := a
    obtain ⟨h3, h4, h5, _⟩ := doExecute_some re hne src pos a0 a1 hpos h
    simp only []
    rw [matchesFrom, allMatchesLoop_fuel re hne src (src.length - pos) (src.length + 1 - a1) a1
      a1 0 h5 (by omega) (by omega)]

theorem drop_sep (a b : List Char) (c : Char) (x : Nat) :
    (a ++ c :: b).drop (x + (a.length + 1)) = b.drop x := by
  rw [show x + (a.length + 1) = a.length + (x + 1) by omega, List.drop_append]
  rfl

theorem doExecute_sep_right (re : Regexp) (a b : List Char) (c : Char) (q : Nat) :
    doExecute re (a ++ c :: b) (q + (a.length + 1))
      = (doExecute re b q).map (shift (a.length + 1)) := by
  rw [doExecute, doExecute, drop_sep, searchFrom_shift]

theorem doExecute_sep_left (re : Regexp) (hne : re.NoEmpty) (a b : List Char) (c : Char)
    (hc : re.rejects c = true) (pos : Nat) (hpos : pos ≤ a.length) :
    doExecute re (a ++ c :: b) pos =
      match doExecute re a pos with
      | some x => some x
      | none => (doExecute re b 0).map (shift (a.length + 1)) := by
  rw [doExecute, doExecute, doExecute, List.drop_append_of_le_length hpos,
    searchFrom_sep re hne c hc b, List.length_drop, List.drop_zero]
  cases searchFrom re (a.drop pos) pos with
  | some x => rfl
  | none =>
    simp only []
    rw [show pos + (a.length - pos) + 1 = 0 + (a.length + 1) by omega, searchFrom_shift]

theorem matchesFrom_sep_right (re : Regexp) (hne : re.NoEmpty) (a b : List Char) (c : Char) :
    ∀ (n q : Nat), b.length - q < n → q ≤ b.length →
      matchesFrom re (a ++ c :: b) (q + (a.length + 1))
        = (matchesFrom re b q).map (shift (a.length + 1)) := by
  intro n
  induction n with
  | zero => intro q h; omega
  | succ n ih =>
    intro q hn hq
    rw [matchesFrom_step re hne (a ++ c :: b) _ (by simp; omega),
      matchesFrom_step re hne b q hq, doExecute_sep_right]
    cases h : doExecute re b q with
    | none => rfl
    | some x =>
      obtain ⟨b0, b1⟩ := x
      obtain ⟨h3, h4, h5, _⟩ := doExecute_some re hne b q b0 b1 hq h
      simp only [Option.map_some', shift, List.map_cons]
      rw [ih b1 (by omega) h5]

theorem matchesFrom_sep_left (re : Regexp) (hne : re.NoEmpty) (a b : List Char) (c : Char)
    (hc : re.rejects c = true) :
    ∀ (n pos : Nat), a.length - pos < n → pos ≤ a.length →
      matchesFrom re (a ++ c :: b) pos
        = matchesFrom re a pos ++ (matchesFrom re b 0).map (shift (a.length + 1)) := by
  intro n
  induction n with
  | zero => intro pos h; omega
  | succ n ih =>
    intro pos hn hpos
    rw [matchesFrom_step re hne (a ++ c :: b) pos (by simp; omega),
      matchesFrom_step re hne a pos hpos, doExecute_sep_left re hne a b c hc pos hpos]
    cases h : doExecute re a pos with
    | some x =>
      obtain ⟨a0, a1⟩ := x
      obtain ⟨h3, h4, h5, _⟩ := doExecute_some re hne a pos a0 a1 hpos h
      simp only [List.cons_append]
      rw [ih a1 (by omega) h5]
    | none =>
      simp only [List.nil_append]
      rw [matchesFrom_step re hne b 0 (Nat.zero_le _)]
      cases h2 : doExecute re b 0 with
      | none => rfl
      | some y =>
        obtain ⟨b0, b1⟩ := y
        obtain ⟨h3, h4, h5, _⟩ := doExecute_some re hne b 0 b0 b1 (Nat.zero_le _) h2
        simp only [Option.map_some', shift, List.map_cons]
        rw [matchesFrom_sep_right re hne a b c (b.length - b1 + 1) b1 (by omega) h5]

/-- The matches of `a ++ c :: b`, for a character `c` that no class
accepts, are those of `a` followed by those of `b` moved behind `c`. -/
theorem findAll_sep (re : Regexp) (hne : re.NoEmpty) (a b : List Char) (c : Char)
    (hc : re.rejects c = true) :
    FindAllStringIndex re (a ++ c :: b)
      = FindAllStringIndex re a ++ (FindAllStringIndex re b).map (shift (a.length + 1)) := by
  rw [findAll_eq_matchesFrom re hne, findAll_eq_matchesFrom re hne, findAll_eq_matchesFrom re hne]
  exact matchesFrom_sep_left re hne a b c hc (a.length + 1) 0 (by omega) (Nat.zero_le _)

theorem slice_sep_right (a b : List Char) (c : Char) (x y : Nat) :
    slice (a ++ c :: b) (x + (a.length + 1)) (y + (a.length + 1)) = slice b x y := by
  rw [slice, slice, drop_sep, show y + (a.length + 1) - (x + (a.length + 1)) = y - x by omega]

theorem slice_sep_left (a b : List Char) (c : Char) (x y : Nat) (hy : y ≤ a.length) :
    slice (a ++ c :: b) x y = slice a x y := by
  by_cases hx : x ≤ a.length
  · rw [slice, slice, List.drop_append_of_le_length hx,
      List.take_append_of_le_length (by simp; omega)]
  · have hz : y - x = 0 := by omega
    rw [slice, slice, hz]
    simp

theorem slice_sep_mid (a b : List Char) (c : Char) (e y : Nat) (he : e ≤ a.length) :
    slice (a ++ c :: b) e (y + (a.length + 1)) = a.drop e ++ c :: slice b 0 y := by
  rw [slice, slice, List.drop_append_of_le_length he, List.drop_zero,
    List.take_append_eq_append_take, List.length_drop,
    show y + (a.length + 1) - e - (a.length - e) = y + 1 by omega,
    List.take_of_length_le (by simp; omega)]
  rfl

theorem stitch_sep_right {σ : Type} (repl : σ → List Char → List Char × σ) (a b : List Char)
    (c : Char) : ∀ (idx : List (Nat × Nat)) (e : Nat) (st : σ),
    stitch (a ++ c :: b) repl (e + (a.length + 1)) (idx.map (shift (a.length + 1))) st
      = stitch b repl e idx st := by
  intro idx
  induction idx with
  | nil => intro e st; simp [stitch, drop_sep]
  | cons x rest ih =>
    intro e st
    simp only [List.map_cons, stitch, shift, slice_sep_right, ih]

theorem stitch_sep_mid {σ : Type} (repl : σ → List Char → List Char × σ) (a b : List Char)
    (c : Char) (idx : List (Nat × Nat)) (e : Nat) (st : σ) (he : e ≤ a.length) :
    stitch (a ++ c :: b) repl e (idx.map (shift (a.length + 1))) st
      = (a.drop e ++ c :: (stitch b repl 0 idx st).1, (stitch b repl 0 idx st).2) := by
  cases idx with
  | nil => simp [stitch, List.drop_append_of_le_length he]
  | cons x rest =>
    simp only [List.map_cons, stitch, shift, slice_sep_right, slice_sep_mid a b c e _ he,
      stitch_sep_right, List.append_assoc, List.cons_append]

theorem stitch_sep_left {σ : Type} (repl : σ → List Char → List Char × σ) (a b : List Char)
    (c : Char) (idxb : List (Nat × Nat)) : ∀ (idxa : List (Nat × Nat)) (e : Nat) (st : σ),
    Chained a e idxa → e ≤ a.length →
    stitch (a ++ c :: b) repl e (idxa ++ idxb.map (shift (a.length + 1))) st
      = ((stitch a repl e idxa st).1 ++ c :: (stitch b repl 0 idxb (stitch a repl e idxa st).2).1,
          (stitch b repl 0 idxb (stitch a repl e idxa st).2).2) := by
  intro idxa
  induction idxa with
  | nil =>
    intro e st _ he
    simp only [List.nil_append, stitch]
    exact stitch_sep_mid repl a b c idxb e st he
  | cons x rest ih =>
    intro e st hch he
    obtain ⟨h1, h2, h3, h4⟩ := hch
    rw [List.cons_append]
    simp only [stitch, slice_sep_left a b c _ _ h3,
      slice_sep_left a b c e x.1 (by omega), ih x.2 _ h4 h3, List.append_assoc]

end regexp

namespace masker

open regexp

theorem emailRegex_rejects_newline : emailRegex.rejects '\n' = true := by decide

theorem newline_not_mem_email {w : List Char} (h : IsEmail alnumChars localSpecials w) :
    '\n' ∉ w := by
  obtain ⟨L, D, rfl, _, hL, labels, rfl, _, hall⟩ := h
  intro hm
  simp only [List.mem_append, List.mem_cons] at hm
  rcases hm with hm | hm | hm
  · have := hL _ hm
    exact absurd this (by decide)
  · exact absurd hm (by decide)
  · cases labels with
    | nil => simp [dotted] at hm
    | cons l ls =>
      have hlab : ∀ l1 ∈ l :: ls, '\n' ∉ l1 := by
        intro l1 hl1 hm1
        have := (hall l1 hl1).2.2.2 _ hm1
        exact absurd this (by decide)
      simp only [dotted, List.mem_append, List.mem_flatMap, List.mem_cons] at hm
      rcases hm with hm | ⟨x, hx, hm | hm⟩
      · exact hlab l (List.mem_cons_self _ _) hm
      · exact absurd hm (by decide)
      · exact hlab x (List.mem_cons_of_mem _ hx) hm

/-- C20: for all texts `a` and `b`, `Mask` of `a`, a newline and `b` on one
engine returns the masked `a`, a newline and the masked `b`, and leaves the
engine in the state reached by `Mask` of `a` followed by `Mask` of `b`; no
match holds a newline. -/
theorem Mask_distributes_over_newline (m : Masker) (a b : List Char) :
    (m.Mask ⟨a ++ '\n' :: b⟩).1.data
      = (m.Mask ⟨a⟩).1.data ++ '\n' :: ((m.Mask ⟨a⟩).2.Mask ⟨b⟩).1.data ∧
    (m.Mask ⟨a ++ '\n' :: b⟩).1.data = (m.Mask ⟨a⟩).1.data ++ '\n' :: (m.Mask ⟨b⟩).1.data ∧
    (m.Mask ⟨a ++ '\n' :: b⟩).2 = ((m.Mask ⟨a⟩).2.Mask ⟨b⟩).2 ∧
    ∀ text : List Char, ∀ w ∈ FindAllString emailRegex text, '\n' ∉ w := by
  have key : m.Mask ⟨a ++ '\n' :: b⟩
      = (⟨(m.Mask ⟨a⟩).1.data ++ '\n' :: ((m.Mask ⟨a⟩).2.Mask ⟨b⟩).1.data⟩,
          ((m.Mask ⟨a⟩).2.Mask ⟨b⟩).2) := by
    rw [Mask_eq_stitch, Mask_eq_stitch m ⟨a⟩, Mask_eq_stitch _ ⟨b⟩]
    simp only [findAll_sep emailRegex emailRegex_noEmpty a b '\n' emailRegex_rejects_newline]
    rw [stitch_sep_left maskOne a b '\n' _ _ 0 m (findAll_chained a) (Nat.zero_le _)]
  refine ⟨by rw [key], ?_, by rw [key], ?_⟩
  · rw [key, Mask_output_indep ⟨b⟩ (m.Mask ⟨a⟩).2 m]
  · intro text w hw
    exact newline_not_mem_email (Lang_email w (findAll_mem text w hw).1)

theorem Mask_distributes_over_newline_witness :
    (New.Mask ⟨"Line 1: user1@example.com".data ++ '\n' :: "Line 2: user2@test.org".data⟩).1.data
      = (New.Mask ⟨"Line 1: user1@example.com".data⟩).1.data
        ++ '\n' :: (New.Mask ⟨"Line 2: user2@test.org".data⟩).1.data ∧
    '\n' ∉ "user1@example.com".data :=
  ⟨(Mask_distributes_over_newline New "Line 1: user1@example.com".data
      "Line 2: user2@test.org".data).2.1,
    (Mask_distributes_over_newline New "Line 1: user1@example.com".data
      "Line 2: user2@test.org".data).2.2.2 "Line 1: user1@example.com".data
      "user1@example.com".data (by decide)⟩

end masker

namespace regexp

theorem flatMap_head {α β : Type} {f : α → List β} : ∀ {l : List α} {r : β} {tl : List β},
    l.flatMap f = r :: tl → ∃ x ∈ l, ∃ tl1, f x = r :: tl1 := by
  intro l
  induction l with
  | nil => intro r tl h; simp at h
  | cons x l ih =>
    intro r tl h
    rw [List.flatMap_cons] at h
    cases hx : f x with
    | nil =>
      rw [hx, List.nil_append] at h
      obtain ⟨y, hy, tl1, h1⟩ := ih h
      exact ⟨y, List.mem_cons_of_mem _ hy, tl1, h1⟩
    | cons y ys =>
      rw [hx, List.cons_append] at h
      have : y = r := (List.cons.inj h).1
      exact ⟨x, List.mem_cons_self _ _, ys, by rw [hx, this]⟩

theorem flatMap_head_first {α β : Type} {f : α → List β} (hf : ∀ x, f x ≠ []) {l : List α}
    {r : β} {tl : List β} (h : l.flatMap f = r :: tl) :
    ∃ x rest tl1, l = x :: rest ∧ f x = r :: tl1 := by
  cases l with
  | nil => simp at h
  | cons x l =>
    rw [List.flatMap_cons] at h
    cases hx : f x with
    | nil => exact absurd hx (hf x)
    | cons y ys =>
      rw [hx, List.cons_append] at h
      have : y = r := (List.cons.inj h).1
      exact ⟨x, l, ys, rfl, by rw [hx, this]⟩

theorem loopRuns_ne_nil (body : List Char → List (List Char)) (n : Nat) (s : List Char) :
    loopRuns body n s ≠ [] := by
  cases n with
  | zero => simp [loopRuns]
  | succ n => simp [loopRuns]

theorem noHead_append (cl : RuneClass) (w r : List Char)
    (hw : ∀ c ∈ w, inClass cl c = false) (hr : NoHead cl r) : NoHead cl (w ++ r) := by
  cases w with
  | nil => simpa using hr
  | cons c w =>
    intro x hx
    simp only [List.cons_append, List.head?_cons, Option.mem_def, Option.some.injEq] at hx
    exact hx ▸ hw c (List.mem_cons_self _ _)

theorem runs_plus_class_cons (cl : RuneClass) (c : Char) (s : List Char)
    (hc : inClass cl c = true) :
    (Regexp.plus (.charClass cl)).runs (c :: s)
      = loopRuns (Regexp.charClass cl).runs s.length s := by
  rw [runs_plus, runs_class_cons, if_pos hc, List.flatMap_cons, List.flatMap_nil,
    List.append_nil]

theorem split_run (cl : RuneClass) : ∀ y : List Char,
    ∃ w r, y = w ++ r ∧ (∀ c ∈ w, inClass cl c = true) ∧ NoHead cl r := by
  intro y
  induction y with
  | nil => exact ⟨[], [], rfl, by simp, by intro c hc; simp at hc⟩
  | cons x y ih =>
    by_cases hx : inClass cl x = true
    · obtain ⟨w, r, rfl, hw, hr⟩ := ih
      refine ⟨x :: w, r, rfl, ?_, hr⟩
      intro c hc
      rcases List.mem_cons.1 hc with rfl | hc
      · exact hx
      · exact hw c hc
    · refine ⟨[], x :: y, rfl, by simp, ?_⟩
      intro c hc
      simp only [List.head?_cons, Option.mem_def, Option.some.injEq] at hc
      subst hc
      simpa using hx

end regexp

namespace masker

open regexp

theorem alnum_false_of_dash_false {c : Char} (h : inClass alnumDashClass c = false) :
    inClass alnumClass c = false := by
  by_contra h2
  have h3 : inClass alnumClass c = true := by simpa using h2
  have h4 := (inClass_alnumDash c).2 (Or.inl ((inClass_alnum c).1 h3))
  rw [h] at h4
  exact absurd h4 (by decide)

/-- The first way to close a label after a run of label characters leaves
no letter or digit in front. -/
theorem label_tail_first : ∀ (w r : List Char) (n : Nat),
    (∀ c ∈ w, inClass alnumDashClass c = true) → NoHead alnumDashClass r → w.length ≤ n →
    ((loopRuns (Regexp.charClass alnumDashClass).runs n (w ++ r)).flatMap
        (Regexp.charClass alnumClass).runs = [] ∧ ∀ c ∈ w, inClass alnumClass c = false) ∨
    ∃ v tl, (loopRuns (Regexp.charClass alnumDashClass).runs n (w ++ r)).flatMap
        (Regexp.charClass alnumClass).runs = v :: tl ∧ NoHead alnumClass v := by
  intro w
  induction w with
  | nil =>
    intro r n _ hr _
    left
    rw [List.nil_append, loopRuns_noHead alnumDashClass n r hr, List.flatMap_cons,
      List.flatMap_nil, List.append_nil, runs_class_noHead alnumClass r (not_alnum_of_noHead hr)]
    exact ⟨rfl, by simp⟩
  | cons c w ih =>
    intro r n hw hr hn
    cases n with
    | zero => simp at hn
    | succ n =>
      rw [List.cons_append, loopRuns_class_cons alnumDashClass n c _ (hw c (List.mem_cons_self _ _)),
        List.flatMap_append, List.flatMap_cons, List.flatMap_nil, List.append_nil,
        runs_class_cons]
      rcases ih r n (fun x hx => hw x (List.mem_cons_of_mem _ hx)) hr (by simpa using hn) with
        ⟨hF, hall⟩ | ⟨v, tl, hF, hv⟩
      · rw [hF, List.nil_append]
        by_cases hc : inClass alnumClass c = true
        · right
          rw [if_pos hc]
          exact ⟨w ++ r, [], rfl, noHead_append alnumClass w r hall (not_alnum_of_noHead hr)⟩
        · left
          rw [if_neg hc]
          refine ⟨rfl, ?_⟩
          intro x hx
          rcases List.mem_cons.1 hx with rfl | hx
          · simpa using hc
          · exact hall x hx
      · right
        rw [hF]
        exact ⟨v, _, rfl, hv⟩

theorem runs_label_nil : labelRegex.runs [] = [] := rfl

theorem runs_label_cons (c : Char) (y : List Char) :
    labelRegex.runs (c :: y) =
      if inClass alnumClass c then
        (loopRuns (Regexp.charClass alnumDashClass).runs y.length y).flatMap
          (Regexp.charClass alnumClass).runs ++ [y]
      else [] := by
  by_cases hc : inClass alnumClass c = true
  · rw [if_pos hc, labelRegex, runs_concat_class_cons alnumClass _ c y hc]
    rfl
  · rw [if_neg hc, labelRegex, runs_concat, runs_class_cons, if_neg hc]
    rfl

/-- The preferred match of the label pattern is not followed by a letter or
digit. -/
theorem runs_label_first (x v : List Char) (tl : List (List Char))
    (h : labelRegex.runs x = v :: tl) : NoHead alnumClass v := by
  cases x with
  | nil => rw [runs_label_nil] at h; exact absurd h (by simp)
  | cons c y =>
    rw [runs_label_cons] at h
    by_cases hc : inClass alnumClass c = true
    · rw [if_pos hc] at h
      obtain ⟨w, r, rfl, hw, hr⟩ := split_run alnumDashClass y
      rcases label_tail_first w r (w ++ r).length hw hr (by simp) with
        ⟨hF, hall⟩ | ⟨v1, tl1, hF, hv⟩
      · rw [hF, List.nil_append] at h
        have : w ++ r = v := (List.cons.inj h).1
        rw [← this]
        exact noHead_append alnumClass w r hall (not_alnum_of_noHead hr)
      · rw [hF, List.cons_append] at h
        have : v1 = v := (List.cons.inj h).1
        exact this ▸ hv
    · rw [if_neg hc] at h
      exact absurd h (by simp)

theorem runs_dotLabel_cases (v v1 : List Char) (rest : List (List Char))
    (h : dotLabelRegex.runs v = v1 :: rest) :
    ∃ u, v = '.' :: u ∧ labelRegex.runs u = v1 :: rest := by
  cases v with
  | nil => rw [runs_dotLabel_nil] at h; exact absurd h (by simp)
  | cons x u =>
    by_cases hx : inClass dotClass x = true
    · have hx1 := (inClass_dot x).1 hx
      subst hx1
      rw [runs_dotLabel_cons] at h
      exact ⟨u, rfl, h⟩
    · rw [dotLabelRegex, runs_concat, runs_class_cons, if_neg hx] at h
      exact absurd h (by simp)

theorem runs_label_ne_nil (d : Char) (w : List Char) (hd : inClass alnumClass d = true) :
    labelRegex.runs (d :: w) ≠ [] := by
  rw [runs_label_cons, if_pos hd]
  simp

/-- The greedy loop over `\.label` stops only where no further label can
follow. -/
theorem loopRuns_dots_stop : ∀ (n : Nat) (v r : List Char) (tl : List (List Char)),
    v.length ≤ n → NoHead alnumClass v → loopRuns dotLabelRegex.runs n v = r :: tl → Stop r := by
  intro n
  induction n with
  | zero =>
    intro v r tl hn hv h
    have hv0 : v = [] := List.length_eq_zero.1 (Nat.le_zero.1 hn)
    subst hv0
    simp only [loopRuns, List.cons.injEq] at h
    rw [← h.1]
    exact ⟨hv, by intro d w hw; simp at hw⟩
  | succ n ih =>
    intro v r tl hn hv h
    rw [loopRuns] at h
    cases hd : dotLabelRegex.runs v with
    | nil =>
      rw [hd, List.flatMap_nil, List.nil_append] at h
      have hr : v = r := (List.cons.inj h).1
      subst hr
      refine ⟨hv, ?_⟩
      intro d w hw
      by_contra hdd
      have hd1 : inClass alnumClass d = true := by simpa using hdd
      rw [hw, runs_dotLabel_cons] at hd
      exact runs_label_ne_nil d w hd1 hd
    | cons v1 rest =>
      obtain ⟨u, hu, hlab⟩ := runs_dotLabel_cases v v1 rest hd
      have hv1 := runs_label_first u v1 rest hlab
      have hlen : v1.length ≤ u.length :=
        labelRegex.runs_length_le u v1 (by rw [hlab]; exact List.mem_cons_self _ _)
      have hlt : v1.length < v.length := by rw [hu]; simp; omega
      rw [hd, List.flatMap_cons, if_pos hlt] at h
      cases hl : loopRuns dotLabelRegex.runs n v1 with
      | nil => exact absurd hl (loopRuns_ne_nil _ _ _)
      | cons r1 tl1 =>
        rw [hl, List.cons_append, List.cons_append] at h
        have : r1 = r := (List.cons.inj h).1
        exact this ▸ ih v1 r1 tl1 (by omega) hv1 hl

/-- The preferred match of the whole pattern stops where no further label
character or label can follow. -/
theorem runs_email_stop (s r : List Char) (tl : List (List Char))
    (h : emailRegex.runs s = r :: tl) : Stop r := by
  rw [emailRegex, runs_concat] at h
  obtain ⟨t, _, tl1, h1⟩ := flatMap_head h
  cases t with
  | nil => rw [runs_concat] at h1; exact absurd h1 (by simp [Regexp.runs])
  | cons x t =>
    by_cases hx : inClass atClass x = true
    · rw [runs_concat_class_cons atClass _ x t hx, runs_concat] at h1
      obtain ⟨u, _, tl2, h2⟩ := flatMap_head h1
      have h3 : (dotLabelRegex.runs u).flatMap
          (fun v => loopRuns dotLabelRegex.runs v.length v) = r :: tl2 := h2
      obtain ⟨v, rest, tl3, hv, h4⟩ :=
        flatMap_head_first (fun v => loopRuns_ne_nil dotLabelRegex.runs v.length v) h3
      obtain ⟨u1, _, hlab⟩ := runs_dotLabel_cases u v rest hv
      exact loopRuns_dots_stop v.length v r tl3 (Nat.le_refl _)
        (runs_label_first u1 v rest hlab) h4
    · rw [runs_concat, runs_class_cons, if_neg hx] at h1
      exact absurd h1 (by simp)

/-- A match can be extended to the left over a local-part character. -/
theorem runs_email_cons (c : Char) (s : List Char) (hc : c ∈ localChars)
    (h : emailRegex.runs s ≠ []) : emailRegex.runs (c :: s) ≠ [] := by
  have hc1 := (inClass_local c).2 hc
  rw [emailRegex, runs_concat] at h ⊢
  cases s with
  | nil => exact absurd rfl h
  | cons d s =>
    by_cases hd : inClass localClass d = true
    · rw [runs_plus_class_cons localClass c _ hc1, List.length_cons,
        loopRuns_class_cons localClass _ d s hd, List.flatMap_append]
      rw [runs_plus_class_cons localClass d _ hd] at h
      intro h0
      exact h (List.append_eq_nil.1 h0).1
    · rw [runs_plus, runs_class_cons, if_neg hd] at h
      exact absurd rfl h

end masker

namespace regexp

theorem drop_of_getElem? : ∀ (l : List Char) (n : Nat) (c : Char), l[n]? = some c →
    l.drop n = c :: l.drop (n + 1) := by
  intro l
  induction l with
  | nil => intro n c h; simp at h
  | cons x l ih =>
    intro n c h
    cases n with
    | zero =>
      simp only [List.getElem?_cons_zero, Option.some.injEq] at h
      simp [h]
    | succ n =>
      simp only [List.getElem?_cons_succ] at h
      simpa using ih n c h

theorem getElem?_of_lt : ∀ (l : List Char) (n : Nat), n < l.length → ∃ c, l[n]? = some c := by
  intro l n h
  exact ⟨l[n], List.getElem?_eq_getElem h⟩

theorem drop_match_end (src w t : List Char) (a0 a1 : Nat) (h1 : src.drop a0 = w ++ t)
    (h2 : slice src a0 a1 = w) (h3 : a0 < a1) (h4 : a1 ≤ src.length) : src.drop a1 = t := by
  have hw : w.length = a1 - a0 := by
    rw [← h2, slice, List.length_take, List.length_drop]
    omega
  rw [show a1 = a0 + (a1 - a0) by omega, ← List.drop_drop, h1, ← hw]
  simp

/-- Where each match of `allMatches` comes from: the search for it started
at the beginning or at the end of another match, found no match before it,
and took the preferred match at its start. -/
theorem allMatchesLoop_origin (re : Regexp) (hne : re.NoEmpty) (src : List Char) :
    ∀ (fuel pos : Nat) (prev : Int) (a : Nat × Nat), pos ≤ src.length →
      a ∈ allMatchesLoop re src fuel pos prev →
      ∃ p, (p = pos ∨ ∃ b ∈ allMatchesLoop re src fuel pos prev, b.2 = p) ∧ p ≤ a.1 ∧
        (∀ k, p ≤ k → k < a.1 → re.runs (src.drop k) = []) ∧
        ∃ t tl, re.runs (src.drop a.1) = t :: tl ∧ src.drop a.2 = t := by
  intro fuel
  induction fuel with
  | zero => intro pos prev a _ h; simp [allMatchesLoop] at h
  | succ fuel ih =>
    intro pos prev a hpos h
    rw [allMatchesLoop_step re hne src fuel pos prev hpos] at h ⊢
    cases hd : doExecute re src pos with
    | none => rw [hd] at h; simp at h
    | some b =>
      obtain ⟨a0, a1⟩ := b
      rw [hd] at h
      obtain ⟨h3, h4, h5, w, t, tl, e1, e2, _, e4, e5⟩ :=
        doExecute_some re hne src pos a0 a1 hpos hd
      simp only [] at h ⊢
      rcases List.mem_cons.1 h with rfl | h
      · exact ⟨pos, Or.inl rfl, h3, e5, t, tl, e2, drop_match_end src w t a0 a1 e1 e4 h4 h5⟩
      · obtain ⟨p, hp, hle, hk, ht⟩ := ih a1 a1 a h5 h
        refine ⟨p, Or.inr ?_, hle, hk, ht⟩
        rcases hp with rfl | ⟨b, hb, hb2⟩
        · exact ⟨(a0, p), List.mem_cons_self _ _, rfl⟩
        · exact ⟨b, List.mem_cons_of_mem _ hb, hb2⟩

end regexp

namespace masker

open regexp

/-- C19: every match is maximal on both sides.  The match starts at the
beginning of the text, or where another match ends, or after a character
that is not a local-part character; the character after the match, if any,
is not a letter or digit, and if it is a dot the character after the dot, if
any, is not a letter or digit. -/
theorem match_is_maximal (text : List Char) (a : Nat × Nat)
    (h : a ∈ FindAllStringIndex emailRegex text) :
    (a.1 = 0 ∨ (∃ b ∈ FindAllStringIndex emailRegex text, b.2 = a.1) ∨
      ∃ c, 0 < a.1 ∧ text[a.1 - 1]? = some c ∧ c ∉ localChars) ∧
    (∀ c, text[a.2]? = some c → c ∉ alnumChars) ∧
    (text[a.2]? = some '.' → ∀ d, text[a.2 + 1]? = some d → d ∉ alnumChars) := by
  obtain ⟨p, hp, hle, hk, t, tl, ht, hdrop⟩ :=
    allMatchesLoop_origin emailRegex emailRegex_noEmpty text _ 0 _ a (Nat.zero_le _) h
  have hstop := runs_email_stop _ t tl ht
  refine ⟨?_, ?_, ?_⟩
  · by_cases hpa : p = a.1
    · rcases hp with h0 | ⟨b, hb, hb2⟩
      · left; omega
      · right; left; exact ⟨b, hb, by omega⟩
    · right; right
      have hlt : a.1 - 1 < text.length := by
        by_contra hge
        have hnil : text.drop a.1 = [] := List.drop_eq_nil_of_le (by omega)
        rw [hnil, runs_email_nil] at ht
        exact absurd ht (by simp)
      obtain ⟨c, hc⟩ := getElem?_of_lt text (a.1 - 1) hlt
      refine ⟨c, by omega, hc, ?_⟩
      intro hloc
      have hnone := hk (a.1 - 1) (by omega) (by omega)
      rw [drop_of_getElem? text (a.1 - 1) c hc, show a.1 - 1 + 1 = a.1 by omega] at hnone
      exact runs_email_cons c _ hloc (by rw [ht]; simp) hnone
  · intro c hc hmem
    have hd := drop_of_getElem? text a.2 c hc
    rw [hdrop] at hd
    have := hstop.1 c (by rw [hd]; simp)
    rw [(inClass_alnum c).2 hmem] at this
    exact absurd this (by decide)
  · intro hdot d hd hmem
    have h1 := drop_of_getElem? text a.2 '.' hdot
    have h2 := drop_of_getElem? text (a.2 + 1) d hd
    rw [h2, hdrop] at h1
    have := hstop.2 d _ h1
    rw [(inClass_alnum d).2 hmem] at this
    exact absurd this (by decide)

theorem match_is_maximal_witness :
    ((8, 24) : Nat × Nat) ∈ FindAllStringIndex emailRegex "Contact test@example.com.".data ∧
    (((8, 24) : Nat × Nat).1 = 0 ∨
      (∃ b ∈ FindAllStringIndex emailRegex "Contact test@example.com.".data,
        b.2 = ((8, 24) : Nat × Nat).1) ∨
      ∃ c, 0 < ((8, 24) : Nat × Nat).1 ∧
        "Contact test@example.com.".data[((8, 24) : Nat × Nat).1 - 1]? = some c ∧
        c ∉ localChars) ∧
    (∀ c, "Contact test@example.com.".data[((8, 24) : Nat × Nat).2]? = some c → c ∉ alnumChars) ∧
    ("Contact test@example.com.".data[((8, 24) : Nat × Nat).2]? = some '.' →
      ∀ d, "Contact test@example.com.".data[((8, 24) : Nat × Nat).2 + 1]? = some d →
        d ∉ alnumChars) :=
  ⟨by decide, match_is_maximal "Contact test@example.com.".data (8, 24) (by decide)⟩

end masker
